import Mathlib

/-!
Verification of the explore-menu faceted index engine (menu_explore.c).

Strings are modelled as lists of byte values (`List Nat`), mirroring the
`unsigned char*` views used by the C code.  The hash map, hash functions,
string normalizer and query predicates are shallow embeddings of the
corresponding C functions; 32-bit arithmetic is made explicit with `% 2 ^ 32`.
-/

namespace Explore

/-- ASCII case fold, as performed by `tolower` / `c | 0x20` on bytes. -/
def toLowerByte (c : Nat) : Nat :=
  if 65 ≤ c ∧ c ≤ 90 then c ||| 32 else c

/-- The case-folded content of a C string up to its first NUL byte:
`strcasecmp` compares exactly these sequences. -/
def ckey (s : List Nat) : List Nat :=
  (s.takeWhile (fun c => c ≠ 0)).map toLowerByte

/-- Plain lexicographic byte comparison returning the first difference. -/
def lexCmp : List Nat → List Nat → Int
  | [], [] => 0
  | [], c :: _ => -(c : Int)
  | c :: _, [] => (c : Int)
  | c1 :: t1, c2 :: t2 => if c1 = c2 then lexCmp t1 t2 else (c1 : Int) - (c2 : Int)

/-- Model of C `strcasecmp`: byte-wise case-folded comparison that stops at
the first NUL byte of either argument. -/
def strcasecmp : List Nat → List Nat → Int
  | [], [] => 0
  | [], c2 :: _ => 0 - toLowerByte c2
  | c1 :: _, [] => toLowerByte c1
  | c1 :: t1, c2 :: t2 =>
      if toLowerByte c1 = toLowerByte c2 then
        (if c1 = 0 then 0 else strcasecmp t1 t2)
      else (toLowerByte c1 : Int) - (toLowerByte c2 : Int)

/-- `explore_qsort_func_strings`: raw first byte first, `strcasecmp` as the
tie break. -/
def explore_qsort_func_strings (a b : List Nat) : Int :=
  if a.headD 0 ≠ b.headD 0 then (a.headD 0 : Int) - (b.headD 0 : Int)
  else strcasecmp a b

/-- The order relation realized by `qsort` with `explore_qsort_func_strings`. -/
abbrev qsortRel (a b : List Nat) : Prop :=
  explore_qsort_func_strings a b ≤ 0

instance : DecidableRel qsortRel := fun _ _ => inferInstanceAs (Decidable (_ ≤ _))

/-- Model of the facet-array sorting step of `explore_build_list`
(`qsort` with `explore_qsort_func_strings`). -/
def explore_sort_strings (l : List (List Nat)) : List (List Nat) :=
  l.insertionSort qsortRel

/-- The adjacent-pair property asserted by the spec: case-insensitive
comparison strictly less, or equal with the raw first byte not greater. -/
def specSortedPair (a b : List Nat) : Prop :=
  strcasecmp a b < 0 ∨ (strcasecmp a b = 0 ∧ a.headD 0 ≤ b.headD 0)

instance : DecidableRel specSortedPair := fun _ _ =>
  inferInstanceAs (Decidable (_ ∨ _))

theorem toLowerByte_eq_zero {c : Nat} (h : toLowerByte c = 0) : c = 0 := by
  unfold toLowerByte at h
  split at h
  · exfalso
    have hb : (c ||| 32).testBit 5 = true := by
      rw [Nat.testBit_or]
      simp [show Nat.testBit 32 5 = true by decide]
    rw [h] at hb
    simp [Nat.zero_testBit] at hb
  · exact h

theorem ckey_nil : ckey [] = [] := rfl

theorem ckey_cons_zero (t : List Nat) : ckey (0 :: t) = [] := by
  simp [ckey]

theorem ckey_cons_ne {c : Nat} (h : c ≠ 0) (t : List Nat) :
    ckey (c :: t) = toLowerByte c :: ckey t := by
  simp [ckey, h]

theorem ckey_ne_zero {s : List Nat} : ∀ x ∈ ckey s, x ≠ 0 := by
  induction s with
  | nil => simp [ckey_nil]
  | cons c t ih =>
    by_cases h : c = 0
    · subst h; simp [ckey_cons_zero]
    · rw [ckey_cons_ne h]
      intro x hx
      rcases List.mem_cons.mp hx with h1 | h2
      · subst h1; exact fun h0 => h (toLowerByte_eq_zero h0)
      · exact ih x h2

theorem strcasecmp_eq_lexCmp (a b : List Nat) :
    strcasecmp a b = lexCmp (ckey a) (ckey b) := by
  induction a generalizing b with
  | nil =>
    cases b with
    | nil => rfl
    | cons c2 t2 =>
      by_cases h2 : c2 = 0
      · subst h2
        simp [strcasecmp, ckey_nil, ckey_cons_zero, lexCmp, toLowerByte]
      · simp [strcasecmp, ckey_nil, ckey_cons_ne h2, lexCmp]
  | cons c1 t1 ih =>
    cases b with
    | nil =>
      by_cases h1 : c1 = 0
      · subst h1
        simp [strcasecmp, ckey_nil, ckey_cons_zero, lexCmp, toLowerByte]
      · simp [strcasecmp, ckey_nil, ckey_cons_ne h1, lexCmp]
    | cons c2 t2 =>
      simp only [strcasecmp]
      by_cases h1 : c1 = 0 <;> by_cases h2 : c2 = 0
      · subst h1; subst h2
        simp [ckey_cons_zero, lexCmp, toLowerByte]
      · subst h1
        have hL2 : toLowerByte c2 ≠ 0 := fun h => h2 (toLowerByte_eq_zero h)
        have hL1 : toLowerByte 0 = 0 := by simp [toLowerByte]
        rw [if_neg (by omega)]
        simp [ckey_cons_zero, ckey_cons_ne h2, lexCmp, hL1]
      · subst h2
        have hL1 : toLowerByte c1 ≠ 0 := fun h => h1 (toLowerByte_eq_zero h)
        have hL2 : toLowerByte 0 = 0 := by simp [toLowerByte]
        rw [if_neg (by omega)]
        simp [ckey_cons_zero, ckey_cons_ne h1, lexCmp, hL2]
      · rw [ckey_cons_ne h1, ckey_cons_ne h2]
        by_cases heq : toLowerByte c1 = toLowerByte c2
        · rw [if_pos heq, if_neg h1]
          simp [lexCmp, heq, ih]
        · rw [if_neg heq]
          simp [lexCmp, heq]

theorem lexCmp_flip (a b : List Nat) : lexCmp a b = -lexCmp b a := by
  induction a generalizing b with
  | nil => cases b <;> simp [lexCmp]
  | cons c1 t1 ih =>
    cases b with
    | nil => simp [lexCmp]
    | cons c2 t2 =>
      by_cases h : c1 = c2
      · subst h; simp [lexCmp, ih]
      · have h' : c2 ≠ c1 := fun hh => h hh.symm
        simp only [lexCmp, if_neg h, if_neg h']
        omega

theorem lexCmp_trans {a b c : List Nat} (ha : ∀ x ∈ a, x ≠ 0)
    (hc : ∀ x ∈ c, x ≠ 0) (hab : lexCmp a b ≤ 0) (hbc : lexCmp b c ≤ 0) :
    lexCmp a c ≤ 0 := by
  induction a generalizing b c with
  | nil =>
    cases c with
    | nil => simp [lexCmp]
    | cons c3 t3 => simp [lexCmp]
  | cons c1 t1 ih =>
    have hc1 : c1 ≠ 0 := ha c1 (List.mem_cons_self c1 t1)
    cases b with
    | nil =>
      exfalso
      simp [lexCmp] at hab
      omega
    | cons c2 t2 =>
      cases c with
      | nil =>
        exfalso
        simp only [lexCmp] at hab hbc
        by_cases h12 : c1 = c2
        · rw [if_pos h12] at hab; omega
        · rw [if_neg h12] at hab; omega
      | cons c3 t3 =>
        have hc3 : c3 ≠ 0 := hc c3 (List.mem_cons_self c3 t3)
        simp only [lexCmp] at hab hbc ⊢
        by_cases h12 : c1 = c2 <;> by_cases h23 : c2 = c3
        · have h13 : c1 = c3 := h12.trans h23
          rw [if_pos h12] at hab
          rw [if_pos h23] at hbc
          rw [if_pos h13]
          exact ih (fun x hx => ha x (List.mem_cons_of_mem c1 hx))
            (fun x hx => hc x (List.mem_cons_of_mem c3 hx)) hab hbc
        · rw [if_pos h12] at hab
          rw [if_neg h23] at hbc
          rw [if_neg (h12 ▸ h23)]
          omega
        · rw [if_neg h12] at hab
          rw [if_pos h23] at hbc
          rw [if_neg (h23 ▸ h12)]
          omega
        · rw [if_neg h12] at hab
          rw [if_neg h23] at hbc
          by_cases h13 : c1 = c3
          · exfalso; omega
          · rw [if_neg h13]; omega

theorem strcasecmp_flip (a b : List Nat) : strcasecmp a b = -strcasecmp b a := by
  rw [strcasecmp_eq_lexCmp, strcasecmp_eq_lexCmp, lexCmp_flip]

theorem strcasecmp_trans {a b c : List Nat} (hab : strcasecmp a b ≤ 0)
    (hbc : strcasecmp b c ≤ 0) : strcasecmp a c ≤ 0 := by
  rw [strcasecmp_eq_lexCmp] at hab hbc ⊢
  exact lexCmp_trans ckey_ne_zero ckey_ne_zero hab hbc

theorem qsortRel_total (a b : List Nat) : qsortRel a b ∨ qsortRel b a := by
  unfold qsortRel explore_qsort_func_strings
  by_cases h : a.headD 0 = b.headD 0
  · rw [if_neg (by omega), if_neg (by omega)]
    have := strcasecmp_flip a b
    omega
  · rw [if_pos h, if_pos (fun hh => h hh.symm)]
    omega

theorem qsortRel_trans {a b c : List Nat} (hab : qsortRel a b)
    (hbc : qsortRel b c) : qsortRel a c := by
  unfold qsortRel explore_qsort_func_strings at hab hbc ⊢
  by_cases h12 : a.headD 0 = b.headD 0 <;> by_cases h23 : b.headD 0 = c.headD 0
  · rw [if_neg (by omega)] at hab
    rw [if_neg (by omega)] at hbc
    rw [if_neg (by omega)]
    exact strcasecmp_trans hab hbc
  · rw [if_neg (by omega)] at hab
    rw [if_pos h23] at hbc
    rw [if_pos (by omega)]
    omega
  · rw [if_pos h12] at hab
    rw [if_neg (by omega)] at hbc
    rw [if_pos (by omega)]
    omega
  · rw [if_pos h12] at hab
    rw [if_pos h23] at hbc
    by_cases h13 : a.headD 0 = c.headD 0
    · exfalso; omega
    · rw [if_pos h13]; omega

instance : IsTotal (List Nat) qsortRel := ⟨qsortRel_total⟩

instance : IsTrans (List Nat) qsortRel := ⟨fun _ _ _ => qsortRel_trans⟩

theorem qsortRel_elim {a b : List Nat} (h : qsortRel a b) :
    a.headD 0 < b.headD 0 ∨ (a.headD 0 = b.headD 0 ∧ strcasecmp a b ≤ 0) := by
  unfold qsortRel explore_qsort_func_strings at h
  by_cases he : a.headD 0 = b.headD 0
  · right
    refine ⟨he, ?_⟩
    rwa [if_neg (by omega)] at h
  · left
    rw [if_pos he] at h
    omega

/-- C1 counterexample: sorting the category values "a" (byte 97) and "B"
(byte 66) with `explore_qsort_func_strings` places "B" first because its raw
first byte is smaller, yet "B" is strictly greater than "a" under the
case-insensitive comparison, so the adjacent pair violates the claimed
ordering (case-insensitive primary key, first-byte tiebreak). -/
theorem C1_counterexample :
    explore_sort_strings [[97], [66]] = [[66], [97]] ∧
      ¬ specSortedPair [66] [97] := by
  constructor
  · rfl
  · intro h
    rcases h with h | ⟨h, _⟩ <;> revert h <;> decide

/-- C1 (amended): after the build's facet sort, every adjacent pair of
values is ordered with the raw first byte as the primary key and the
case-insensitive comparison as the tiebreak. -/
theorem C1_facet_sort_order (l : List (List Nat)) :
    List.Chain' (fun a b => a.headD 0 < b.headD 0 ∨
      (a.headD 0 = b.headD 0 ∧ strcasecmp a b ≤ 0)) (explore_sort_strings l) := by
  have hs : List.Sorted qsortRel (explore_sort_strings l) :=
    List.sorted_insertionSort qsortRel l
  exact (List.Pairwise.chain' hs).imp (fun _ _ hab => qsortRel_elim hab)

/-- Model of the open-addressing `ex_hashmap32`: `len` live entries,
power-of-two capacity, parallel key/value slot arrays; key 0 marks an
empty slot. -/
structure Hashmap32 where
  len : Nat
  cap : Nat
  keys : List Nat
  vals : List Nat
deriving DecidableEq

/-- The zero-initialized map. -/
def hmEmpty : Hashmap32 := ⟨0, 0, [], []⟩

/-- The index mask `i &= cap - 1`. -/
def exMask (i cap : Nat) : Nat := i &&& (cap - 1)

/-- Slot visited at step `t` of the linear probe that starts at key `k`. -/
def probePath (cap k t : Nat) : Nat := (k + t) % cap

/-- Probe loop of `ex_hashmap32_getnum`. -/
def probeGet (keys vals : List Nat) (cap key : Nat) : Nat → Nat → Nat
  | 0, _ => 0
  | fuel + 1, i =>
    let j := exMask i cap
    if keys.getD j 0 = key then vals.getD j 0
    else if keys.getD j 0 = 0 then 0
    else probeGet keys vals cap key fuel (j + 1)

/-- `ex_hashmap32_getnum`: 0 for an empty map, the key 0, or a missing key. -/
def ex_hashmap32_getnum (m : Hashmap32) (key : Nat) : Nat :=
  if m.len = 0 ∨ key = 0 then 0
  else probeGet m.keys m.vals m.cap key m.cap key

/-- Probe loop of `ex_hashmap32_setnum`: stops at the first empty slot
(insert) or at the key itself (overwrite). -/
def probeSet (keys vals : List Nat) (cap key val : Nat) :
    Nat → Nat → List Nat × List Nat × Bool
  | 0, _ => (keys, vals, false)
  | fuel + 1, i =>
    let j := exMask i cap
    if keys.getD j 0 = 0 then (keys.set j key, vals.set j val, true)
    else if keys.getD j 0 = key then (keys, vals.set j val, false)
    else probeSet keys vals cap key val fuel (j + 1)

/-- Probe loop of `ex_hashmap32__grow`'s reinsertion: stops only at an
empty slot. -/
def probeIns (keys vals : List Nat) (cap key val : Nat) :
    Nat → Nat → List Nat × List Nat
  | 0, _ => (keys, vals)
  | fuel + 1, i =>
    let j := exMask i cap
    if keys.getD j 0 = 0 then (keys.set j key, vals.set j val)
    else probeIns keys vals cap key val fuel (j + 1)

/-- The reinsertion loop of `ex_hashmap32__grow`: every live (nonzero-key)
old slot is probed into the new table. -/
def growFold (cap : Nat) (ps : List (Nat × Nat)) (acc : List Nat × List Nat) :
    List Nat × List Nat :=
  ps.foldl (fun acc p =>
    if p.1 = 0 then acc else probeIns acc.1 acc.2 cap p.1 p.2 cap p.1) acc

/-- `ex_hashmap32__grow`: allocate a zeroed table of the requested capacity
(at least 16) and reinsert every live entry by probing from its key. -/
def ex_hashmap32__grow (m : Hashmap32) (newCap : Nat) : Hashmap32 :=
  let cap := if newCap < 16 then 16 else newCap
  let kv := growFold cap (m.keys.zip m.vals)
    (List.replicate cap 0, List.replicate cap 0)
  { len := m.len, cap := cap, keys := kv.1, vals := kv.2 }

/-- The probe-and-store phase of `ex_hashmap32_setnum` (after the growth
check): find the first empty-or-matching slot and write the entry. -/
def hmStore (m : Hashmap32) (key val : Nat) : Hashmap32 :=
  match probeSet m.keys m.vals m.cap key val m.cap key with
  | (ks, vs, inserted) =>
    { len := if inserted then m.len + 1 else m.len
      cap := m.cap, keys := ks, vals := vs }

/-- `ex_hashmap32_setnum`: ignore key 0, grow when the load factor reaches
one half, then probe and insert or overwrite. -/
def ex_hashmap32_setnum (m : Hashmap32) (key val : Nat) : Hashmap32 :=
  if key = 0 then m
  else hmStore
    (if 2 * m.len ≥ m.cap then ex_hashmap32__grow m (2 * m.cap) else m) key val

/-- The key stored at slot `j` (0 when out of range or empty). -/
def keyAt (keys : List Nat) (j : Nat) : Nat := keys.getD j 0

/-- Number of live (nonzero) keys in a slot array. -/
def nzCount (keys : List Nat) : Nat := (keys.filter (fun c => c ≠ 0)).length

/-- The probe for `k` stops exactly at step `d`: the slot there holds `k`
or is empty, and every earlier slot on the path holds some other key. -/
def StopAt (keys : List Nat) (cap k d : Nat) : Prop :=
  (keyAt keys (probePath cap k d) = k ∨ keyAt keys (probePath cap k d) = 0) ∧
  ∀ t < d, keyAt keys (probePath cap k t) ≠ 0 ∧ keyAt keys (probePath cap k t) ≠ k

/-- Every live key is reachable by its own probe: probing from the key
stops exactly at the slot that holds it. -/
def FindInv (keys : List Nat) (cap : Nat) : Prop :=
  ∀ j < cap, keyAt keys j ≠ 0 →
    ∃ d < cap, probePath cap (keyAt keys j) d = j ∧
      StopAt keys cap (keyAt keys j) d

/-- Representation invariant of a grown, populated table. -/
structure HmInv (m : Hashmap32) : Prop where
  pow : ∃ t, 4 ≤ t ∧ m.cap = 2 ^ t
  klen : m.keys.length = m.cap
  vlen : m.vals.length = m.cap
  load : 2 * m.len ≤ m.cap
  lenEq : m.len = nzCount m.keys
  find : FindInv m.keys m.cap

/-- Either still the untouched zero map, or a table satisfying `HmInv`. -/
def HmOk (m : Hashmap32) : Prop := m = hmEmpty ∨ HmInv m

/-- Abstract contents: `f k = some v` iff some slot holds the pair. -/
def TableRep (m : Hashmap32) (f : Nat → Option Nat) : Prop :=
  ∀ k, k ≠ 0 →
    (match f k with
     | some v => ∃ j < m.cap, keyAt m.keys j = k ∧ m.vals.getD j 0 = v
     | none => ∀ j < m.cap, keyAt m.keys j ≠ k)

theorem exMask_eq_mod {cap : Nat} (i : Nat) (h : ∃ t, cap = 2 ^ t) :
    exMask i cap = i % cap := by
  obtain ⟨t, rfl⟩ := h
  unfold exMask
  exact Nat.and_pow_two_sub_one_eq_mod i t

theorem probePath_lt {cap : Nat} (hcap : 0 < cap) (k t : Nat) :
    probePath cap k t < cap := Nat.mod_lt _ hcap

theorem probePath_succ (cap k t : Nat) :
    (probePath cap k t + 1) % cap = probePath cap k (t + 1) := by
  unfold probePath
  rw [Nat.mod_add_mod, Nat.add_assoc]

theorem probePath_inj {cap : Nat} (hcap : 0 < cap) {k t1 t2 : Nat}
    (h1 : t1 < cap) (h2 : t2 < cap)
    (h : probePath cap k t1 = probePath cap k t2) : t1 = t2 := by
  unfold probePath at h
  rcases Nat.le_total t1 t2 with hle | hle
  · have hz : (k + t2 - (k + t1)) % cap = 0 :=
      Nat.sub_mod_eq_zero_of_mod_eq h.symm
    have hs : k + t2 - (k + t1) = t2 - t1 := by omega
    rw [hs, Nat.mod_eq_of_lt (by omega)] at hz
    omega
  · have hz : (k + t1 - (k + t2)) % cap = 0 :=
      Nat.sub_mod_eq_zero_of_mod_eq h
    have hs : k + t1 - (k + t2) = t1 - t2 := by omega
    rw [hs, Nat.mod_eq_of_lt (by omega)] at hz
    omega

theorem path_surj {cap : Nat} (hcap : 0 < cap) (k j : Nat) (hj : j < cap) :
    ∃ t < cap, probePath cap k t = j := by
  refine ⟨(cap - k % cap + j) % cap, Nat.mod_lt _ hcap, ?_⟩
  unfold probePath
  rw [Nat.add_mod_mod]
  have hr : k % cap < cap := Nat.mod_lt _ hcap
  have hd : cap * (k / cap) + k % cap = k := Nat.div_add_mod k cap
  have hm : cap * (k / cap + 1) = cap * (k / cap) + cap := by ring
  have heq : k + (cap - k % cap + j) = cap * (k / cap + 1) + j := by omega
  rw [heq, Nat.mul_add_mod, Nat.mod_eq_of_lt hj]

theorem nzCount_le_length (keys : List Nat) : nzCount keys ≤ keys.length :=
  List.length_filter_le _ _

theorem nzCount_eq_length {keys : List Nat}
    (h : ∀ j < keys.length, keyAt keys j ≠ 0) : nzCount keys = keys.length := by
  induction keys with
  | nil => rfl
  | cons c t ih =>
    have hc : c ≠ 0 := by
      have h0 := h 0 (by simp)
      simpa [keyAt] using h0
    have ht : ∀ j < t.length, keyAt t j ≠ 0 := by
      intro j hj
      have := h (j + 1) (by simpa using Nat.succ_lt_succ hj)
      simpa [keyAt] using this
    unfold nzCount at ih ⊢
    rw [List.filter_cons, if_pos (by simpa using hc)]
    simp only [List.length_cons, ih ht]

theorem exists_empty_slot {keys : List Nat} (h : nzCount keys < keys.length) :
    ∃ j, j < keys.length ∧ keyAt keys j = 0 := by
  by_contra hno
  push_neg at hno
  have := nzCount_eq_length hno
  omega

theorem exists_first_stop {P : Nat → Prop} [DecidablePred P] (h : ∃ t, P t) :
    ∃ d, P d ∧ ∀ t < d, ¬ P t :=
  ⟨Nat.find h, Nat.find_spec h, fun t ht => Nat.find_min h ht⟩

theorem probeGet_spec {keys vals : List Nat} {cap k d : Nat}
    (hpow : ∃ t, cap = 2 ^ t) (hk : k ≠ 0)
    (hstop : keyAt keys (probePath cap k d) = k ∨
      keyAt keys (probePath cap k d) = 0)
    (hpre : ∀ t < d, keyAt keys (probePath cap k t) ≠ 0 ∧
      keyAt keys (probePath cap k t) ≠ k) :
    ∀ fuel t0 i, t0 ≤ d → d - t0 < fuel → i % cap = probePath cap k t0 →
      probeGet keys vals cap k fuel i =
        (if keyAt keys (probePath cap k d) = k
         then vals.getD (probePath cap k d) 0 else 0) := by
  intro fuel
  induction fuel with
  | zero => intro t0 i _ h2 _; omega
  | succ fuel ih =>
    intro t0 i ht0 hfuel hi
    simp only [probeGet]
    rw [exMask_eq_mod i hpow, hi]
    by_cases heq : t0 = d
    · subst heq
      rcases hstop with hs | hs
      · have hgd : keys.getD (probePath cap k t0) 0 = k := hs
        rw [if_pos hgd, if_pos hs]
      · have hgd0 : keys.getD (probePath cap k t0) 0 = 0 := hs
        have hgdk : ¬ keys.getD (probePath cap k t0) 0 = k := by
          rw [hgd0]; exact fun hh => hk hh.symm
        have hkk : ¬ keyAt keys (probePath cap k t0) = k := hgdk
        rw [if_neg hgdk, if_pos hgd0, if_neg hkk]
    · have ht0d : t0 < d := by omega
      obtain ⟨hnz, hnk⟩ := hpre t0 ht0d
      rw [show keys.getD (probePath cap k t0) 0 = keyAt keys (probePath cap k t0) from rfl,
        if_neg hnk, if_neg hnz]
      exact ih (t0 + 1) _ (by omega) (by omega) (probePath_succ cap k t0)

theorem probeSet_spec {keys vals : List Nat} {cap k v d : Nat}
    (hpow : ∃ t, cap = 2 ^ t) (hk : k ≠ 0)
    (hstop : keyAt keys (probePath cap k d) = k ∨
      keyAt keys (probePath cap k d) = 0)
    (hpre : ∀ t < d, keyAt keys (probePath cap k t) ≠ 0 ∧
      keyAt keys (probePath cap k t) ≠ k) :
    ∀ fuel t0 i, t0 ≤ d → d - t0 < fuel → i % cap = probePath cap k t0 →
      probeSet keys vals cap k v fuel i =
        (if keyAt keys (probePath cap k d) = 0
         then (keys.set (probePath cap k d) k,
               vals.set (probePath cap k d) v, true)
         else (keys, vals.set (probePath cap k d) v, false)) := by
  intro fuel
  induction fuel with
  | zero => intro t0 i _ h2 _; omega
  | succ fuel ih =>
    intro t0 i ht0 hfuel hi
    simp only [probeSet]
    rw [exMask_eq_mod i hpow, hi]
    by_cases heq : t0 = d
    · subst heq
      rcases hstop with hs | hs
      · have hgdk : keys.getD (probePath cap k t0) 0 = k := hs
        have hgd0 : ¬ keys.getD (probePath cap k t0) 0 = 0 := by
          rw [hgdk]; exact hk
        have hk0 : ¬ keyAt keys (probePath cap k t0) = 0 := hgd0
        rw [if_neg hgd0, if_pos hgdk, if_neg hk0]
      · have hgd0 : keys.getD (probePath cap k t0) 0 = 0 := hs
        rw [if_pos hgd0, if_pos hs]
    · have ht0d : t0 < d := by omega
      obtain ⟨hnz, hnk⟩ := hpre t0 ht0d
      rw [show keys.getD (probePath cap k t0) 0 = keyAt keys (probePath cap k t0) from rfl,
        if_neg hnz, if_neg hnk]
      exact ih (t0 + 1) _ (by omega) (by omega) (probePath_succ cap k t0)

theorem probeIns_spec {keys vals : List Nat} {cap k v d : Nat}
    (hpow : ∃ t, cap = 2 ^ t)
    (hstop : keyAt keys (probePath cap k d) = 0)
    (hpre : ∀ t < d, keyAt keys (probePath cap k t) ≠ 0) :
    ∀ fuel t0 i, t0 ≤ d → d - t0 < fuel → i % cap = probePath cap k t0 →
      probeIns keys vals cap k v fuel i =
        (keys.set (probePath cap k d) k, vals.set (probePath cap k d) v) := by
  intro fuel
  induction fuel with
  | zero => intro t0 i _ h2 _; omega
  | succ fuel ih =>
    intro t0 i ht0 hfuel hi
    simp only [probeIns]
    rw [exMask_eq_mod i hpow, hi]
    by_cases heq : t0 = d
    · subst heq
      rw [show keys.getD (probePath cap k t0) 0 = keyAt keys (probePath cap k t0) from rfl,
        if_pos hstop]
    · have ht0d : t0 < d := by omega
      have hnz := hpre t0 ht0d
      rw [show keys.getD (probePath cap k t0) 0 = keyAt keys (probePath cap k t0) from rfl,
        if_neg hnz]
      exact ih (t0 + 1) _ (by omega) (by omega) (probePath_succ cap k t0)

theorem keyAt_set_self {keys : List Nat} {j : Nat} (hj : j < keys.length)
    (x : Nat) : keyAt (keys.set j x) j = x := by
  unfold keyAt
  rw [List.getD_eq_getElem?_getD, List.getElem?_set_self hj]
  rfl

theorem keyAt_set_ne {keys : List Nat} {i j : Nat} (hij : i ≠ j) (x : Nat) :
    keyAt (keys.set i x) j = keyAt keys j := by
  unfold keyAt
  rw [List.getD_eq_getElem?_getD, List.getD_eq_getElem?_getD,
    List.getElem?_set_ne hij]

theorem getD_set_self {l : List Nat} {j : Nat} (hj : j < l.length) (x : Nat) :
    (l.set j x).getD j 0 = x := by
  rw [List.getD_eq_getElem?_getD, List.getElem?_set_self hj]
  rfl

theorem getD_set_ne {l : List Nat} {i j : Nat} (hij : i ≠ j) (x : Nat) :
    (l.set i x).getD j 0 = l.getD j 0 := by
  rw [List.getD_eq_getElem?_getD, List.getD_eq_getElem?_getD,
    List.getElem?_set_ne hij]

theorem nzCount_set_insert {keys : List Nat} {j k : Nat}
    (hj : j < keys.length) (h0 : keyAt keys j = 0) (hk : k ≠ 0) :
    nzCount (keys.set j k) = nzCount keys + 1 := by
  induction keys generalizing j with
  | nil => simp at hj
  | cons c t ih =>
    cases j with
    | zero =>
      have hc : c = 0 := by simpa [keyAt] using h0
      subst hc
      unfold nzCount
      simp [List.filter_cons, hk]
    | succ j =>
      have hj' : j < t.length := by simpa using hj
      have h0' : keyAt t j = 0 := by simpa [keyAt] using h0
      unfold nzCount at ih ⊢
      rw [List.set_cons_succ, List.filter_cons, List.filter_cons]
      by_cases hc : c = 0
      · subst hc
        rw [if_neg (by simp), if_neg (by simp)]
        exact ih hj' h0'
      · rw [if_pos (by simpa using hc), if_pos (by simpa using hc)]
        simp only [List.length_cons, ih hj' h0']

theorem nzCount_pos {keys : List Nat} {j : Nat} (hj : j < keys.length)
    (hnz : keyAt keys j ≠ 0) : 0 < nzCount keys := by
  have hmem : keyAt keys j ∈ keys := by
    unfold keyAt
    rw [List.getD_eq_getElem?_getD, List.getElem?_eq_getElem hj]
    exact List.getElem_mem hj
  have hmf : keyAt keys j ∈ keys.filter (fun c => decide (c ≠ 0)) :=
    List.mem_filter.mpr ⟨hmem, decide_eq_true hnz⟩
  unfold nzCount
  exact List.length_pos.mpr (List.ne_nil_of_mem hmf)

theorem findInv_unique {keys : List Nat} {cap : Nat} (hcap : 0 < cap)
    (hf : FindInv keys cap) {j1 j2 k : Nat} (h1 : j1 < cap) (h2 : j2 < cap)
    (hk1 : keyAt keys j1 = k) (hk2 : keyAt keys j2 = k) (hk : k ≠ 0) :
    j1 = j2 := by
  obtain ⟨d1, hd1, hp1, hs1⟩ := hf j1 h1 (hk1 ▸ hk)
  obtain ⟨d2, hd2, hp2, hs2⟩ := hf j2 h2 (hk2 ▸ hk)
  rw [hk1] at hp1 hs1
  rw [hk2] at hp2 hs2
  rcases Nat.lt_trichotomy d1 d2 with h | h | h
  · exfalso
    have := (hs2.2 d1 h).2
    rw [hp1, hk1] at this
    exact this rfl
  · subst h
    rw [← hp1, ← hp2]
  · exfalso
    have := (hs1.2 d2 h).2
    rw [hp2, hk2] at this
    exact this rfl

theorem findInv_set_insert {keys : List Nat} {cap k d : Nat}
    (hcap : 0 < cap) (hklen : keys.length = cap)
    (hfind : FindInv keys cap) (hk : k ≠ 0) (hd : d < cap)
    (hstop0 : keyAt keys (probePath cap k d) = 0)
    (hpre : ∀ t < d, keyAt keys (probePath cap k t) ≠ 0 ∧
      keyAt keys (probePath cap k t) ≠ k) :
    FindInv (keys.set (probePath cap k d) k) cap := by
  intro j hj hnz
  by_cases hjj : j = probePath cap k d
  · subst hjj
    have hkey : keyAt (keys.set (probePath cap k d) k) (probePath cap k d) = k :=
      keyAt_set_self (by rw [hklen]; exact probePath_lt hcap k d) k
    rw [hkey]
    refine ⟨d, hd, rfl, Or.inl hkey, ?_⟩
    intro t ht
    have hne : probePath cap k t ≠ probePath cap k d := by
      intro hcontra
      have := probePath_inj hcap (Nat.lt_trans ht hd) hd hcontra
      omega
    rw [keyAt_set_ne (fun hh => hne hh.symm) k]
    exact hpre t ht
  · have hkey : keyAt (keys.set (probePath cap k d) k) j = keyAt keys j :=
      keyAt_set_ne (fun hh => hjj hh.symm) k
    rw [hkey] at hnz ⊢
    obtain ⟨d', hd', hp', hs'⟩ := hfind j hj hnz
    refine ⟨d', hd', hp', ?_, ?_⟩
    · have hne : probePath cap (keyAt keys j) d' ≠ probePath cap k d := by
        rw [hp']
        exact hjj
      rw [keyAt_set_ne (fun hh => hne hh.symm) k]
      exact hs'.1
    · intro t ht
      have hold := hs'.2 t ht
      have hne : probePath cap (keyAt keys j) t ≠ probePath cap k d := by
        intro hcontra
        have := hold.1
        rw [hcontra] at this
        exact this hstop0
      rw [keyAt_set_ne (fun hh => hne hh.symm) k]
      exact hold

theorem hmInv_cap_pos {m : Hashmap32} (hinv : HmInv m) : 0 < m.cap := by
  obtain ⟨t, _, hc⟩ := hinv.pow
  rw [hc]
  exact Nat.pos_pow_of_pos t (by omega)

theorem hmInv_cap_pow {m : Hashmap32} (hinv : HmInv m) : ∃ t, m.cap = 2 ^ t := by
  obtain ⟨t, _, hc⟩ := hinv.pow
  exact ⟨t, hc⟩

theorem hm_get_found {m : Hashmap32} (hinv : HmInv m) {k j : Nat}
    (hj : j < m.cap) (hkey : keyAt m.keys j = k) (hk : k ≠ 0) :
    ex_hashmap32_getnum m k = m.vals.getD j 0 := by
  have hcap := hmInv_cap_pos hinv
  have hlen : m.len ≠ 0 := by
    have h1 := nzCount_pos (j := j) (by rw [hinv.klen]; exact hj) (hkey ▸ hk)
    have h2 := hinv.lenEq
    omega
  obtain ⟨d, hd, hp, hs⟩ := hinv.find j hj (hkey ▸ hk)
  rw [hkey] at hp hs
  unfold ex_hashmap32_getnum
  rw [if_neg (by simp [hlen, hk])]
  rw [probeGet_spec (hmInv_cap_pow hinv) hk hs.1 hs.2 m.cap 0 k (by omega)
    (by omega) (by simp [probePath])]
  rw [hp, if_pos hkey]

theorem hm_get_absent {m : Hashmap32} (hinv : HmInv m) {k : Nat} (hk : k ≠ 0)
    (habs : ∀ j < m.cap, keyAt m.keys j ≠ k) :
    ex_hashmap32_getnum m k = 0 := by
  by_cases hlen : m.len = 0
  · unfold ex_hashmap32_getnum
    rw [if_pos (Or.inl hlen)]
  · have hcap := hmInv_cap_pos hinv
    have hroom : nzCount m.keys < m.cap := by
      have h1 := hinv.load
      have h2 := hinv.lenEq
      omega
    obtain ⟨j0, hj0len, hj0⟩ := exists_empty_slot (by rw [hinv.klen]; exact hroom)
    rw [hinv.klen] at hj0len
    obtain ⟨t1, ht1, hpt1⟩ := path_surj hcap k j0 hj0len
    have hex : ∃ t, keyAt m.keys (probePath m.cap k t) = 0 := ⟨t1, hpt1 ▸ hj0⟩
    obtain ⟨d, hdstop, hdmin⟩ := exists_first_stop hex
    have hdlt : d < m.cap := by
      by_contra hge
      exact hdmin t1 (by omega) (hpt1 ▸ hj0)
    unfold ex_hashmap32_getnum
    rw [if_neg (by simp [hlen, hk])]
    rw [probeGet_spec (hmInv_cap_pow hinv) hk (Or.inr hdstop)
      (fun t ht => ⟨hdmin t ht, habs _ (probePath_lt hcap k t)⟩)
      m.cap 0 k (by omega) (by omega) (by simp [probePath])]
    rw [if_neg (by rw [hdstop]; exact fun hh => hk hh.symm)]

theorem hm_get_rep {m : Hashmap32} {f : Nat → Option Nat} (hok : HmOk m)
    (hrep : TableRep m f) (k : Nat) :
    ex_hashmap32_getnum m k = if k = 0 then 0 else (f k).getD 0 := by
  by_cases hk : k = 0
  · subst hk
    unfold ex_hashmap32_getnum
    rw [if_pos (Or.inr rfl), if_pos rfl]
  · rw [if_neg hk]
    rcases hok with hemp | hinv
    · subst hemp
      have hr := hrep k hk
      cases hfk : f k with
      | none =>
        unfold ex_hashmap32_getnum
        simp [hmEmpty]
      | some v =>
        rw [hfk] at hr
        obtain ⟨j, hj, _⟩ := hr
        exact absurd hj (by simp [hmEmpty])
    · have hr := hrep k hk
      cases hfk : f k with
      | none =>
        rw [hfk] at hr
        rw [hm_get_absent hinv hk hr]
        simp
      | some v =>
        rw [hfk] at hr
        obtain ⟨j, hj, hkey, hval⟩ := hr
        rw [hm_get_found hinv hj hkey hk, hval]
        simp

theorem hm_store_spec {m : Hashmap32} {f : Nat → Option Nat} (hinv : HmInv m)
    (hrep : TableRep m f) (hroom : ¬ 2 * m.len ≥ m.cap) {k : Nat} (hk : k ≠ 0)
    (v : Nat) :
    HmInv (hmStore m k v) ∧
      TableRep (hmStore m k v)
        (fun k' => if k' = k then some v else f k') := by
  have hcap := hmInv_cap_pos hinv
  have hpow := hmInv_cap_pow hinv
  have hcapeven : ∃ u, m.cap = 2 * u := by
    obtain ⟨t, ht4, hc⟩ := hinv.pow
    refine ⟨2 ^ (t - 1), ?_⟩
    rw [hc, ← pow_succ']
    congr 1
    omega
  have hroomn : nzCount m.keys < m.cap := by
    have := hinv.lenEq
    omega
  obtain ⟨j0, hj0len, hj0⟩ := exists_empty_slot (by rw [hinv.klen]; exact hroomn)
  rw [hinv.klen] at hj0len
  obtain ⟨t1, ht1, hpt1⟩ := path_surj hcap k j0 hj0len
  have hex : ∃ t, keyAt m.keys (probePath m.cap k t) = 0 ∨
      keyAt m.keys (probePath m.cap k t) = k := ⟨t1, Or.inl (hpt1 ▸ hj0)⟩
  obtain ⟨d, hdstop, hdmin⟩ := exists_first_stop hex
  have hdlt : d < m.cap := by
    by_contra hge
    exact hdmin t1 (by omega) (Or.inl (hpt1 ▸ hj0))
  have hpre : ∀ t < d, keyAt m.keys (probePath m.cap k t) ≠ 0 ∧
      keyAt m.keys (probePath m.cap k t) ≠ k := by
    intro t ht
    have hmin := hdmin t ht
    push_neg at hmin
    exact hmin
  have hstop : keyAt m.keys (probePath m.cap k d) = k ∨
      keyAt m.keys (probePath m.cap k d) = 0 := hdstop.symm
  unfold hmStore
  rw [probeSet_spec hpow hk hstop hpre m.cap 0 k (by omega) (by omega)
    (by simp [probePath])]
  have hjlt : probePath m.cap k d < m.cap := probePath_lt hcap k d
  by_cases hcase : keyAt m.keys (probePath m.cap k d) = 0
  · rw [if_pos hcase]
    show HmInv ⟨m.len + 1, m.cap, m.keys.set (probePath m.cap k d) k,
        m.vals.set (probePath m.cap k d) v⟩ ∧
      TableRep ⟨m.len + 1, m.cap, m.keys.set (probePath m.cap k d) k,
        m.vals.set (probePath m.cap k d) v⟩
        (fun k' => if k' = k then some v else f k')
    have hjklen : probePath m.cap k d < m.keys.length := by
      rw [hinv.klen]; exact hjlt
    have hjvlen : probePath m.cap k d < m.vals.length := by
      rw [hinv.vlen]; exact hjlt
    constructor
    · refine ⟨hinv.pow, ?_, ?_, ?_, ?_, ?_⟩
      · simpa using hinv.klen
      · simpa using hinv.vlen
      · show 2 * (m.len + 1) ≤ m.cap
        obtain ⟨u, hu⟩ := hcapeven
        have := hinv.load
        omega
      · show m.len + 1 = nzCount (m.keys.set (probePath m.cap k d) k)
        rw [nzCount_set_insert hjklen hcase hk]
        have := hinv.lenEq
        omega
      · exact findInv_set_insert hcap hinv.klen hinv.find hk hdlt hcase hpre
    · intro k' hk'
      by_cases hkk : k' = k
      · subst hkk
        simp only [if_pos rfl]
        exact ⟨probePath m.cap k' d, hjlt, keyAt_set_self hjklen k',
          getD_set_self hjvlen v⟩
      · simp only [if_neg hkk]
        have hr := hrep k' hk'
        cases hfk : f k' with
        | some v' =>
          rw [hfk] at hr
          obtain ⟨j, hj, hkey, hval⟩ := hr
          have hne : j ≠ probePath m.cap k d := by
            intro hh
            rw [hh] at hkey
            rw [hcase] at hkey
            exact hk' hkey.symm
          exact ⟨j, hj, by rw [keyAt_set_ne (fun hh => hne hh.symm) k]; exact hkey,
            by rw [getD_set_ne (fun hh => hne hh.symm) v]; exact hval⟩
        | none =>
          rw [hfk] at hr
          intro j hj
          by_cases hjj : j = probePath m.cap k d
          · subst hjj
            rw [keyAt_set_self hjklen k]
            exact fun hh => hkk hh.symm
          · rw [keyAt_set_ne (fun hh => hjj hh.symm) k]
            exact hr j hj
  · rw [if_neg hcase]
    have hcasek : keyAt m.keys (probePath m.cap k d) = k := by
      rcases hstop with h | h
      · exact h
      · exact absurd h hcase
    show HmInv ⟨m.len, m.cap, m.keys, m.vals.set (probePath m.cap k d) v⟩ ∧
      TableRep ⟨m.len, m.cap, m.keys, m.vals.set (probePath m.cap k d) v⟩
        (fun k' => if k' = k then some v else f k')
    have hjvlen : probePath m.cap k d < m.vals.length := by
      rw [hinv.vlen]; exact hjlt
    constructor
    · exact ⟨hinv.pow, hinv.klen, by simpa using hinv.vlen, hinv.load,
        hinv.lenEq, hinv.find⟩
    · intro k' hk'
      by_cases hkk : k' = k
      · subst hkk
        simp only [if_pos rfl]
        exact ⟨probePath m.cap k' d, hjlt, hcasek, getD_set_self hjvlen v⟩
      · simp only [if_neg hkk]
        have hr := hrep k' hk'
        cases hfk : f k' with
        | some v' =>
          rw [hfk] at hr
          obtain ⟨j, hj, hkey, hval⟩ := hr
          have hne : j ≠ probePath m.cap k d := by
            intro hh
            rw [hh, hcasek] at hkey
            exact hkk hkey.symm
          exact ⟨j, hj, hkey,
            by rw [getD_set_ne (fun hh => hne hh.symm) v]; exact hval⟩
        | none =>
          rw [hfk] at hr
          exact hr

theorem keyAt_eq_getElem {keys : List Nat} {j : Nat} (hj : j < keys.length) :
    keyAt keys j = keys[j] := by
  unfold keyAt
  rw [List.getD_eq_getElem?_getD, List.getElem?_eq_getElem hj]
  rfl

theorem getD_eq_getElem {l : List Nat} {j : Nat} (hj : j < l.length) :
    l.getD j 0 = l[j] := by
  rw [List.getD_eq_getElem?_getD, List.getElem?_eq_getElem hj]
  rfl

theorem keyAt_replicate_zero (n j : Nat) : keyAt (List.replicate n 0) j = 0 := by
  unfold keyAt
  rw [List.getD_eq_getElem?_getD, List.getElem?_replicate]
  by_cases h : j < n <;> simp [h]

theorem nzCount_replicate_zero (n : Nat) : nzCount (List.replicate n 0) = 0 := by
  unfold nzCount
  induction n with
  | zero => rfl
  | succ n ih =>
    rw [List.replicate_succ, List.filter_cons]
    simp only [if_neg (by simp : ¬ (decide ((0:Nat) ≠ 0) = true))]
    exact ih

theorem nzCount_cons (c : Nat) (t : List Nat) :
    nzCount (c :: t) = (if c = 0 then 0 else 1) + nzCount t := by
  unfold nzCount
  rw [List.filter_cons]
  by_cases hc : c = 0
  · subst hc
    rw [if_neg (by simp), if_pos rfl]
    simp
  · rw [if_pos (by simpa using hc), if_neg hc]
    simp [Nat.add_comm]

theorem slot_pair_mem_zip {keys vals : List Nat} {j : Nat}
    (hj : j < keys.length) (hlen : vals.length = keys.length) :
    (keyAt keys j, vals.getD j 0) ∈ keys.zip vals := by
  have hjz : j < (keys.zip vals).length := by
    rw [List.length_zip keys vals]
    exact lt_min hj (hlen ▸ hj)
  rw [List.mem_iff_getElem]
  refine ⟨j, hjz, ?_⟩
  rw [List.getElem_zip, keyAt_eq_getElem hj, getD_eq_getElem (hlen ▸ hj)]

theorem zip_mem_slot {keys vals : List Nat} {p : Nat × Nat}
    (h : p ∈ keys.zip vals) :
    ∃ j < keys.length, keyAt keys j = p.1 ∧ vals.getD j 0 = p.2 := by
  rw [List.mem_iff_getElem] at h
  obtain ⟨j, hj, hval⟩ := h
  have hjk : j < keys.length := by
    rw [List.length_zip keys vals] at hj
    exact lt_of_lt_of_le hj (min_le_left _ _)
  have hjv : j < vals.length := by
    rw [List.length_zip keys vals] at hj
    exact lt_of_lt_of_le hj (min_le_right _ _)
  refine ⟨j, hjk, ?_, ?_⟩
  · rw [keyAt_eq_getElem hjk, ← hval, List.getElem_zip]
  · rw [getD_eq_getElem hjv, ← hval, List.getElem_zip]

theorem zip_pairwise_distinct {keys vals : List Nat} {cap : Nat}
    (hcap : 0 < cap) (hklen : keys.length = cap) (hfind : FindInv keys cap) :
    List.Pairwise (fun p q : Nat × Nat => p.1 ≠ 0 → q.1 ≠ 0 → p.1 ≠ q.1)
      (keys.zip vals) := by
  rw [List.pairwise_iff_getElem]
  intro i j hi hj hij
  simp only [List.getElem_zip]
  intro hp hq heq
  have hik : i < keys.length := by
    rw [List.length_zip keys vals] at hi
    exact lt_of_lt_of_le hi (min_le_left _ _)
  have hjk : j < keys.length := by
    rw [List.length_zip keys vals] at hj
    exact lt_of_lt_of_le hj (min_le_left _ _)
  have heq' : keyAt keys j = keys[i] := by
    rw [keyAt_eq_getElem hjk]
    exact heq.symm
  have := findInv_unique hcap hfind (hklen ▸ hik) (hklen ▸ hjk)
    (keyAt_eq_getElem hik) heq' hp
  omega

theorem zip_filter_nz_length {keys vals : List Nat}
    (hlen : vals.length = keys.length) :
    ((keys.zip vals).filter (fun p => p.1 ≠ 0)).length = nzCount keys := by
  induction keys generalizing vals with
  | nil => simp [nzCount]
  | cons c t ih =>
    cases vals with
    | nil => simp at hlen
    | cons v vs =>
      have hlen' : vs.length = t.length := by simpa using hlen
      rw [List.zip_cons_cons, List.filter_cons, nzCount_cons]
      by_cases hc : c = 0
      · subst hc
        rw [if_neg (by simp), if_pos rfl]
        rw [Nat.zero_add]
        exact ih hlen'
      · rw [if_pos (by simpa using hc), if_neg hc]
        simp only [List.length_cons, ih hlen']
        omega

theorem growFold_nil (cap : Nat) (acc : List Nat × List Nat) :
    growFold cap [] acc = acc := rfl

theorem growFold_cons (cap : Nat) (p : Nat × Nat) (ps : List (Nat × Nat))
    (acc : List Nat × List Nat) :
    growFold cap (p :: ps) acc =
      growFold cap ps
        (if p.1 = 0 then acc else probeIns acc.1 acc.2 cap p.1 p.2 cap p.1) := rfl

theorem grow_fold_spec {cap : Nat} (hpow : ∃ t, cap = 2 ^ t) (hcap : 0 < cap) :
    ∀ (ps : List (Nat × Nat)) (ks vs : List Nat),
      ks.length = cap → vs.length = cap → FindInv ks cap →
      nzCount ks + (ps.filter (fun p => p.1 ≠ 0)).length < cap →
      (∀ p ∈ ps, p.1 ≠ 0 → ∀ j < cap, keyAt ks j ≠ p.1) →
      List.Pairwise (fun p q : Nat × Nat => p.1 ≠ 0 → q.1 ≠ 0 → p.1 ≠ q.1) ps →
      (growFold cap ps (ks, vs)).1.length = cap ∧
      (growFold cap ps (ks, vs)).2.length = cap ∧
      FindInv (growFold cap ps (ks, vs)).1 cap ∧
      nzCount (growFold cap ps (ks, vs)).1 =
        nzCount ks + (ps.filter (fun p => p.1 ≠ 0)).length ∧
      (∀ k v, k ≠ 0 →
        ((∃ j < cap, keyAt (growFold cap ps (ks, vs)).1 j = k ∧
            (growFold cap ps (ks, vs)).2.getD j 0 = v) ↔
         (∃ j < cap, keyAt ks j = k ∧ vs.getD j 0 = v) ∨ (k, v) ∈ ps)) := by
  intro ps
  induction ps with
  | nil =>
    intro ks vs hklen hvlen hfind hcount habs hpw
    rw [growFold_nil]
    refine ⟨hklen, hvlen, hfind, by simp, ?_⟩
    intro k v hk
    simp
  | cons p rest ih =>
    intro ks vs hklen hvlen hfind hcount habs hpw
    obtain ⟨k0, v0⟩ := p
    rw [growFold_cons]
    rw [List.pairwise_cons] at hpw
    by_cases hk0 : k0 = 0
    · subst hk0
      rw [if_pos rfl]
      have hcount' : nzCount ks + (rest.filter (fun p => p.1 ≠ 0)).length < cap := by
        rw [List.filter_cons, if_neg (by simp)] at hcount
        exact hcount
      obtain ⟨h1, h2, h3, h4, h5⟩ := ih ks vs hklen hvlen hfind hcount'
        (fun q hq => habs q (List.mem_cons_of_mem _ hq)) hpw.2
      refine ⟨h1, h2, h3, ?_, ?_⟩
      · rw [h4, List.filter_cons, if_neg (by simp)]
      · intro k v hk
        rw [h5 k v hk, List.mem_cons]
        constructor
        · rintro (h | h)
          · exact Or.inl h
          · exact Or.inr (Or.inr h)
        · rintro (h | h | h)
          · exact Or.inl h
          · exfalso
            have : k = 0 := by
              have := congrArg Prod.fst h
              simpa using this
            exact hk this
          · exact Or.inr h
    · rw [if_neg hk0]
      have hfilter : ((⟨k0, v0⟩ :: rest).filter
          (fun p : Nat × Nat => p.1 ≠ 0)).length =
          (rest.filter (fun p : Nat × Nat => p.1 ≠ 0)).length + 1 := by
        rw [List.filter_cons, if_pos (by simpa using hk0)]
        simp
      have hroom : nzCount ks < cap := by omega
      obtain ⟨j0, hj0len, hj0⟩ := exists_empty_slot (by rw [hklen]; exact hroom)
      rw [hklen] at hj0len
      obtain ⟨t1, ht1, hpt1⟩ := path_surj hcap k0 j0 hj0len
      have hex : ∃ t, keyAt ks (probePath cap k0 t) = 0 := ⟨t1, hpt1 ▸ hj0⟩
      obtain ⟨d, hdstop, hdmin⟩ := exists_first_stop hex
      have hdlt : d < cap := by
        by_contra hge
        exact hdmin t1 (by omega) (hpt1 ▸ hj0)
      have habs0 : ∀ j < cap, keyAt ks j ≠ k0 :=
        habs ⟨k0, v0⟩ (List.mem_cons_self _ _) hk0
      have hpre2 : ∀ t < d, keyAt ks (probePath cap k0 t) ≠ 0 ∧
          keyAt ks (probePath cap k0 t) ≠ k0 :=
        fun t ht => ⟨hdmin t ht, habs0 _ (probePath_lt hcap k0 t)⟩
      have hins : probeIns ks vs cap k0 v0 cap k0 =
          (ks.set (probePath cap k0 d) k0, vs.set (probePath cap k0 d) v0) :=
        probeIns_spec hpow hdstop (fun t ht => hdmin t ht) cap 0 k0
          (by omega) (by omega) (by simp [probePath])
      rw [hins]
      have hjklen : probePath cap k0 d < ks.length := by
        rw [hklen]; exact probePath_lt hcap k0 d
      have hjvlen : probePath cap k0 d < vs.length := by
        rw [hvlen]; exact probePath_lt hcap k0 d
      have hfind' : FindInv (ks.set (probePath cap k0 d) k0) cap :=
        findInv_set_insert hcap hklen hfind hk0 hdlt hdstop hpre2
      have hnz' : nzCount (ks.set (probePath cap k0 d) k0) = nzCount ks + 1 :=
        nzCount_set_insert hjklen hdstop hk0
      have hcount' : nzCount (ks.set (probePath cap k0 d) k0) +
          (rest.filter (fun p => p.1 ≠ 0)).length < cap := by
        rw [hnz']
        omega
      have habs' : ∀ q ∈ rest, q.1 ≠ 0 →
          ∀ j < cap, keyAt (ks.set (probePath cap k0 d) k0) j ≠ q.1 := by
        intro q hq hq0 j hj
        by_cases hjj : j = probePath cap k0 d
        · subst hjj
          rw [keyAt_set_self hjklen k0]
          exact hpw.1 q hq hk0 hq0
        · rw [keyAt_set_ne (fun hh => hjj hh.symm) k0]
          exact habs q (List.mem_cons_of_mem _ hq) hq0 j hj
      obtain ⟨h1, h2, h3, h4, h5⟩ := ih (ks.set (probePath cap k0 d) k0)
        (vs.set (probePath cap k0 d) v0) (by simpa using hklen)
        (by simpa using hvlen) hfind' hcount' habs' hpw.2
      refine ⟨h1, h2, h3, ?_, ?_⟩
      · rw [h4, hnz', hfilter]
        omega
      · intro k v hk
        rw [h5 k v hk, List.mem_cons]
        have hstep : (∃ j < cap, keyAt (ks.set (probePath cap k0 d) k0) j = k ∧
            (vs.set (probePath cap k0 d) v0).getD j 0 = v) ↔
            (∃ j < cap, keyAt ks j = k ∧ vs.getD j 0 = v) ∨ (k, v) = (k0, v0) := by
          constructor
          · rintro ⟨j, hj, hkey, hval⟩
            by_cases hjj : j = probePath cap k0 d
            · subst hjj
              rw [keyAt_set_self hjklen k0] at hkey
              rw [getD_set_self hjvlen v0] at hval
              exact Or.inr (by rw [← hkey, ← hval])
            · rw [keyAt_set_ne (fun hh => hjj hh.symm) k0] at hkey
              rw [getD_set_ne (fun hh => hjj hh.symm) v0] at hval
              exact Or.inl ⟨j, hj, hkey, hval⟩
          · rintro (⟨j, hj, hkey, hval⟩ | heq)
            · have hjj : j ≠ probePath cap k0 d := by
                intro hh
                rw [hh, hdstop] at hkey
                exact hk hkey.symm
              exact ⟨j, hj, by rw [keyAt_set_ne (fun hh => hjj hh.symm) k0]; exact hkey,
                by rw [getD_set_ne (fun hh => hjj hh.symm) v0]; exact hval⟩
            · have hkk : k = k0 := by
                have := congrArg Prod.fst heq
                simpa using this
              have hvv : v = v0 := by
                have := congrArg Prod.snd heq
                simpa using this
              subst hkk
              subst hvv
              exact ⟨probePath cap k d, probePath_lt hcap k d,
                keyAt_set_self hjklen k, getD_set_self hjvlen v⟩
        rw [hstep]
        constructor
        · rintro ((h | h) | h)
          · exact Or.inl h
          · exact Or.inr (Or.inl h)
          · exact Or.inr (Or.inr h)
        · rintro (h | h | h)
          · exact Or.inl (Or.inl h)
          · exact Or.inl (Or.inr h)
          · exact Or.inr h

theorem grow_eq {m : Hashmap32} (h16 : ¬ 2 * m.cap < 16) :
    ex_hashmap32__grow m (2 * m.cap) =
      { len := m.len, cap := 2 * m.cap
        keys := (growFold (2 * m.cap) (m.keys.zip m.vals)
          (List.replicate (2 * m.cap) 0, List.replicate (2 * m.cap) 0)).1
        vals := (growFold (2 * m.cap) (m.keys.zip m.vals)
          (List.replicate (2 * m.cap) 0, List.replicate (2 * m.cap) 0)).2 } := by
  simp only [ex_hashmap32__grow]
  rw [if_neg h16]

theorem grow_spec {m : Hashmap32} {f : Nat → Option Nat} (hok : HmOk m)
    (hrep : TableRep m f) (hcond : 2 * m.len ≥ m.cap) :
    HmInv (ex_hashmap32__grow m (2 * m.cap)) ∧
      TableRep (ex_hashmap32__grow m (2 * m.cap)) f ∧
      ¬ 2 * (ex_hashmap32__grow m (2 * m.cap)).len ≥
        (ex_hashmap32__grow m (2 * m.cap)).cap := by
  rcases hok with hemp | hinv
  · subst hemp
    show HmInv ⟨0, 16, List.replicate 16 0, List.replicate 16 0⟩ ∧
      TableRep ⟨0, 16, List.replicate 16 0, List.replicate 16 0⟩ f ∧
      ¬ 2 * (0 : Nat) ≥ 16
    refine ⟨⟨⟨4, by omega, by norm_num⟩, by simp, by simp, by decide,
      (nzCount_replicate_zero 16).symm, ?_⟩, ?_, by decide⟩
    · intro j hj hnz
      rw [keyAt_replicate_zero] at hnz
      exact absurd rfl hnz
    · intro k hk
      have hr := hrep k hk
      cases hfk : f k with
      | some v =>
        rw [hfk] at hr
        obtain ⟨j, hj, _⟩ := hr
        exact absurd hj (by simp [hmEmpty])
      | none =>
        intro j hj
        rw [keyAt_replicate_zero]
        exact fun hh => hk hh.symm
  · obtain ⟨t, ht4, hcap2⟩ := hinv.pow
    have hcappos := hmInv_cap_pos hinv
    have h16cap : 16 ≤ m.cap := by
      rw [hcap2]
      calc (16 : Nat) = 2 ^ 4 := by norm_num
        _ ≤ 2 ^ t := Nat.pow_le_pow_right (by omega) ht4
    have h16 : ¬ 2 * m.cap < 16 := by omega
    rw [grow_eq h16]
    have hpowC : ∃ u, 2 * m.cap = 2 ^ u := by
      refine ⟨t + 1, ?_⟩
      rw [hcap2, pow_succ, Nat.mul_comm]
    have hcapC : 0 < 2 * m.cap := by omega
    have hvk : m.vals.length = m.keys.length := by
      rw [hinv.vlen, hinv.klen]
    have hfilter : ((m.keys.zip m.vals).filter
        (fun p : Nat × Nat => p.1 ≠ 0)).length = m.len := by
      rw [zip_filter_nz_length hvk]
      exact hinv.lenEq.symm
    have hcount : nzCount (List.replicate (2 * m.cap) 0) +
        ((m.keys.zip m.vals).filter (fun p : Nat × Nat => p.1 ≠ 0)).length <
        2 * m.cap := by
      rw [nzCount_replicate_zero, hfilter]
      have := hinv.load
      omega
    obtain ⟨h1, h2, h3, h4, h5⟩ := grow_fold_spec hpowC hcapC
      (m.keys.zip m.vals) (List.replicate (2 * m.cap) 0)
      (List.replicate (2 * m.cap) 0) (by simp) (by simp)
      (fun j hj hnz => absurd (keyAt_replicate_zero _ j) hnz)
      hcount
      (fun p hp hp0 j hj => by
        rw [keyAt_replicate_zero]
        exact fun hh => hp0 hh.symm)
      (zip_pairwise_distinct hcappos hinv.klen hinv.find)
    refine ⟨⟨⟨t + 1, by omega, by rw [hcap2, pow_succ, Nat.mul_comm]⟩,
      h1, h2, ?_, ?_, h3⟩, ?_, ?_⟩
    · show 2 * m.len ≤ 2 * m.cap
      have := hinv.load
      omega
    · show m.len = nzCount (growFold (2 * m.cap) (m.keys.zip m.vals)
        (List.replicate (2 * m.cap) 0, List.replicate (2 * m.cap) 0)).1
      rw [h4, nzCount_replicate_zero, hfilter, Nat.zero_add]
    · intro k hk
      have hr := hrep k hk
      cases hfk : f k with
      | some v =>
        rw [hfk] at hr
        obtain ⟨j, hj, hkey, hval⟩ := hr
        have hmem : (k, v) ∈ m.keys.zip m.vals := by
          have := slot_pair_mem_zip (j := j) (hinv.klen ▸ hj) hvk
          rw [hkey, hval] at this
          exact this
        exact (h5 k v hk).mpr (Or.inr hmem)
      | none =>
        rw [hfk] at hr
        intro j hj hkey
        have hslot : ∃ j' < 2 * m.cap,
            keyAt (growFold (2 * m.cap) (m.keys.zip m.vals)
              (List.replicate (2 * m.cap) 0, List.replicate (2 * m.cap) 0)).1 j' = k ∧
            (growFold (2 * m.cap) (m.keys.zip m.vals)
              (List.replicate (2 * m.cap) 0, List.replicate (2 * m.cap) 0)).2.getD j' 0 =
              (growFold (2 * m.cap) (m.keys.zip m.vals)
                (List.replicate (2 * m.cap) 0, List.replicate (2 * m.cap) 0)).2.getD j 0 :=
          ⟨j, hj, hkey, rfl⟩
        rcases (h5 k _ hk).mp hslot with ⟨j', hj', hkey', _⟩ | hmem
        · rw [keyAt_replicate_zero] at hkey'
          exact hk hkey'.symm
        · obtain ⟨j', hj', hkey', _⟩ := zip_mem_slot hmem
          exact hr j' (hinv.klen ▸ hj') hkey'
    · show ¬ 2 * m.len ≥ 2 * m.cap
      have := hinv.load
      omega

theorem hm_set_rep {m : Hashmap32} {f : Nat → Option Nat} (hok : HmOk m)
    (hrep : TableRep m f) {k : Nat} (hk : k ≠ 0) (v : Nat) :
    HmInv (ex_hashmap32_setnum m k v) ∧
      TableRep (ex_hashmap32_setnum m k v)
        (fun k' => if k' = k then some v else f k') := by
  unfold ex_hashmap32_setnum
  rw [if_neg hk]
  by_cases hcond : 2 * m.len ≥ m.cap
  · rw [if_pos hcond]
    obtain ⟨hinv', hrep', hroom'⟩ := grow_spec hok hrep hcond
    exact hm_store_spec hinv' hrep' hroom' hk v
  · rw [if_neg hcond]
    have hinv : HmInv m := by
      rcases hok with hemp | hinv
      · exfalso
        apply hcond
        rw [hemp]
        exact Nat.le_refl 0
      · exact hinv
    exact hm_store_spec hinv hrep hcond hk v

/-- Running a sequence of `ex_hashmap32_setnum` operations from the zero
map, as the index builder does. -/
def hmRunOps (ops : List (Nat × Nat)) : Hashmap32 :=
  ops.foldl (fun m p => ex_hashmap32_setnum m p.1 p.2) hmEmpty

/-- The abstract map resulting from a sequence of updates. -/
def opsMap (ops : List (Nat × Nat)) : Nat → Option Nat :=
  ops.foldl (fun g p => fun k => if k = p.1 then some p.2 else g k)
    (fun _ => none)

theorem hm_fold_rep :
    ∀ (ops : List (Nat × Nat)) (m : Hashmap32) (f : Nat → Option Nat),
      HmOk m → TableRep m f → (∀ p ∈ ops, p.1 ≠ 0) →
      HmOk (ops.foldl (fun m p => ex_hashmap32_setnum m p.1 p.2) m) ∧
        TableRep (ops.foldl (fun m p => ex_hashmap32_setnum m p.1 p.2) m)
          (ops.foldl (fun g p => fun k => if k = p.1 then some p.2 else g k) f) := by
  intro ops
  induction ops with
  | nil => exact fun m f hok hrep _ => ⟨hok, hrep⟩
  | cons p rest ih =>
    intro m f hok hrep hops
    have hp : p.1 ≠ 0 := hops p (List.mem_cons_self _ _)
    obtain ⟨hinv', hrep'⟩ := hm_set_rep hok hrep hp p.2
    have := ih (ex_hashmap32_setnum m p.1 p.2)
      (fun k' => if k' = p.1 then some p.2 else f k') (Or.inr hinv') hrep'
      (fun q hq => hops q (List.mem_cons_of_mem _ hq))
    exact this

theorem tableRep_empty : TableRep hmEmpty (fun _ => none) := by
  intro k hk
  intro j hj
  exact absurd hj (by simp [hmEmpty])

/-- The value most recently set for a key: scan the reversed operation
list for the key, defaulting to 0; key 0 always reads back 0. -/
def lastSetVal (ops : List (Nat × Nat)) (k : Nat) : Nat :=
  if k = 0 then 0
  else
    match ops.reverse.find? (fun p => p.1 == k) with
    | some p => p.2
    | none => 0

theorem opsMap_fold_find :
    ∀ (ops : List (Nat × Nat)) (g : Nat → Option Nat) (k : Nat),
      (ops.foldl (fun g p => fun k => if k = p.1 then some p.2 else g k) g) k =
        (match ops.reverse.find? (fun p => p.1 == k) with
         | some p => some p.2
         | none => g k) := by
  intro ops
  induction ops with
  | nil => intro g k; rfl
  | cons p rest ih =>
    intro g k
    rw [List.foldl_cons, ih]
    rw [List.reverse_cons, List.find?_append]
    cases hfind : rest.reverse.find? (fun p => p.1 == k) with
    | some q => rfl
    | none =>
      simp only [Option.or]
      show (if k = p.1 then some p.2 else g k) =
        (match [p].find? (fun p => p.1 == k) with
         | some p => some p.2
         | none => g k)
      by_cases hkp : p.1 = k
      · rw [if_pos hkp.symm]
        simp [List.find?, hkp]
      · rw [if_neg (fun hh => hkp hh.symm)]
        simp only [List.find?]
        rw [show (p.1 == k) = false from beq_eq_false_iff_ne.mpr hkp]

/-- C7: for any sequence of set operations with nonzero keys, starting
from the zero map, get returns the most recently set value for a key,
and 0 for key 0 and for keys never set, across all rehashes. -/
theorem C7_hashmap_get_set (ops : List (Nat × Nat))
    (hops : ∀ p ∈ ops, p.1 ≠ 0) (k : Nat) :
    ex_hashmap32_getnum (hmRunOps ops) k = lastSetVal ops k := by
  obtain ⟨hok, hrep⟩ := hm_fold_rep ops hmEmpty (fun _ => none)
    (Or.inl rfl) tableRep_empty hops
  unfold hmRunOps
  rw [hm_get_rep hok hrep k]
  unfold lastSetVal
  by_cases hk : k = 0
  · rw [if_pos hk, if_pos hk]
  · rw [if_neg hk, if_neg hk, opsMap_fold_find]
    cases hfind : ops.reverse.find? (fun p => p.1 == k) with
    | some p => rfl
    | none => rfl

/-- C7 witness: a concrete operation sequence exercising overwrite,
bucket collision (21 = 5 mod 16) and lookups of unset keys. -/
theorem C7_hashmap_get_set_witness :
    (∀ p ∈ [((5:Nat),(7:Nat)), (5,9), (21,3)], p.1 ≠ 0) ∧
      ex_hashmap32_getnum (hmRunOps [(5,7), (5,9), (21,3)]) 5 =
        lastSetVal [(5,7), (5,9), (21,3)] 5 :=
  ⟨by decide, C7_hashmap_get_set [(5,7), (5,9), (21,3)] (by decide) 5⟩

/-- Value of one hexadecimal digit byte, as accepted by `strtoul`
in base 16. -/
def hexDigit (c : Nat) : Option Nat :=
  if 48 ≤ c ∧ c ≤ 57 then some (c - 48)
  else if 97 ≤ c ∧ c ≤ 102 then some (c - 87)
  else if 65 ≤ c ∧ c ≤ 70 then some (c - 55)
  else none

/-- Modelled from the spec: the C library call `strtoul(str, NULL, 16)`
used on the playlist entry's checksum string, accumulating hex digits
until the first non-digit byte. -/
def strtoul16 : List Nat → Nat → Nat
  | [], acc => acc
  | c :: rest, acc =>
      match hexDigit c with
      | some d => strtoul16 rest (acc * 16 + d)
      | none => acc

/-- The per-entry checksum insertion of `explore_build_list`:
`entry_crc32 = (uint32_t)strtoul(entry->crc32, NULL, 16)` followed by
`ex_hashmap32_setptr(&rdb->playlist_entries, entry_crc32, entry)`. -/
def explore_insert_playlist_entry (map : Hashmap32) (crc : List Nat)
    (entryRef : Nat) : Hashmap32 :=
  ex_hashmap32_setnum map (strtoul16 crc 0 % 2 ^ 32) entryRef

/-- C9: a checksum string parsing to 0 (such as "00000000") is silently
excluded: its insertion into the per-database checksum map is a no-op
because key 0 is the reserved empty sentinel, and a lookup of key 0
always yields 0, so no metadata record can ever match the entry. -/
theorem C9_zero_checksum_excluded :
    strtoul16 [48, 48, 48, 48, 48, 48, 48, 48] 0 % 2 ^ 32 = 0 ∧
    (∀ (map : Hashmap32) (crc : List Nat) (entryRef : Nat),
      strtoul16 crc 0 % 2 ^ 32 = 0 →
      explore_insert_playlist_entry map crc entryRef = map) ∧
    (∀ map : Hashmap32, ex_hashmap32_getnum map 0 = 0) := by
  refine ⟨by decide, ?_, ?_⟩
  · intro map crc entryRef h0
    unfold explore_insert_playlist_entry
    rw [h0]
    unfold ex_hashmap32_setnum
    rw [if_pos rfl]
  · intro map
    unfold ex_hashmap32_getnum
    rw [if_pos (Or.inr rfl)]

/-- C9 witness: inserting the parsed checksum "00000000" into the empty
map leaves it unchanged. -/
theorem C9_zero_checksum_excluded_witness :
    explore_insert_playlist_entry hmEmpty [48, 48, 48, 48, 48, 48, 48, 48] 7 =
      hmEmpty :=
  C9_zero_checksum_excluded.2.1 hmEmpty [48, 48, 48, 48, 48, 48, 48, 48] 7
    (by decide)

/-- One row of the static `explore_by_info` table. -/
structure CatInfo where
  use_split : Bool
  is_company : Bool
  is_numeric : Bool

/-- The ten fixed categories, in source order: Developer, Publisher,
Release Year, Player Count, Genre, Origin, Region, Franchise, Tags,
System. -/
def explore_by_info : List CatInfo :=
  [⟨true, true, false⟩,
   ⟨true, true, false⟩,
   ⟨false, false, true⟩,
   ⟨false, false, true⟩,
   ⟨true, false, false⟩,
   ⟨false, false, false⟩,
   ⟨false, false, false⟩,
   ⟨false, false, false⟩,
   ⟨true, false, false⟩,
   ⟨false, false, false⟩]

/-- `ex_hash32_nocase_filtered`: 32-bit FNV-1a over the bytes inside
`[fFirst, fLast]`, ASCII-folded to lowercase, with the result 0 remapped
to 1. -/
def ex_hash32_nocase_filtered (s : List Nat) (fFirst fLast : Nat) : Nat :=
  let h := s.foldl (fun h c =>
    if fFirst ≤ c ∧ c ≤ fLast then
      ((h * 16777619) % 2 ^ 32) ^^^ (if 65 ≤ c ∧ c ≤ 90 then c ||| 32 else c)
    else h) 2166136261
  if h = 0 then 1 else h

/-- Byte read of the NUL-terminated field buffer at offset `i`: the
terminator position reads as 0; any access outside `[0, length]` is
`none`, modelling an out-of-bounds read (undefined behavior). -/
def atC (s : List Nat) (i : Int) : Option Nat :=
  if i < 0 then none
  else if h : i.toNat < s.length then some (s.get ⟨i.toNat, h⟩)
  else if i.toNat = s.length then some 0
  else none

/-- `while (*p == ' ') p++` over the field buffer. -/
def skipSpaces (s : List Nat) : Nat → Int → Option Int
  | 0, _ => none
  | fuel + 1, i => do
      let c ← atC s i
      if c = 32 then skipSpaces s fuel (i + 1) else pure i

/-- `while (p[-1] == ' ') p--` over the field buffer. -/
def trimBack (s : List Nat) : Nat → Int → Option Int
  | 0, _ => none
  | fuel + 1, i => do
      let c ← atC s (i - 1)
      if c = 32 then trimBack s fuel (i - 1) else pure i

/-- `explore_check_company_suffix(p, false)`: length of an
"Inc"/"Ltd"/"The" token at `p` (4 with a trailing period, else 3),
with the C code's short-circuit read order. -/
def explore_check_company_suffix_fwd (s : List Nat) (p : Int) :
    Option Nat := do
  let c0 ← atC s p
  if toLowerByte c0 = 105 then do
    let c1 ← atC s (p + 1)
    if toLowerByte c1 = 110 then do
      let c2 ← atC s (p + 2)
      if toLowerByte c2 = 99 then do
        let c3 ← atC s (p + 3)
        pure (if c3 = 46 then 4 else 3)
      else pure 0
    else pure 0
  else if toLowerByte c0 = 108 then do
    let c1 ← atC s (p + 1)
    if toLowerByte c1 = 116 then do
      let c2 ← atC s (p + 2)
      if toLowerByte c2 = 100 then do
        let c3 ← atC s (p + 3)
        pure (if c3 = 46 then 4 else 3)
      else pure 0
    else pure 0
  else if toLowerByte c0 = 116 then do
    let c1 ← atC s (p + 1)
    if toLowerByte c1 = 104 then do
      let c2 ← atC s (p + 2)
      if toLowerByte c2 = 101 then do
        let c3 ← atC s (p + 3)
        pure (if c3 = 46 then 4 else 3)
      else pure 0
    else pure 0
  else pure 0

/-- `explore_check_company_suffix(p, true)`: step back over an optional
period plus three token bytes, require a space before the token, then
run the forward check there. -/
def explore_check_company_suffix_rev (s : List Nat) (p : Int) :
    Option Nat := do
  let c1 ← atC s (p - 1)
  let q := p - (if c1 = 46 then 4 else 3)
  let cq ← atC s (q - 1)
  if cq ≠ 32 then pure 0
  else explore_check_company_suffix_fwd s q

/-- One category's interning state during a build: the `by[cat]` array of
canonical values (in allocation order), the `cat_maps[cat]` hash map
(hash → value index + 1), and the category's has-unknown flag. -/
structure CatState where
  values : List (List Nat)
  map : Hashmap32
  hasUnknown : Bool
deriving DecidableEq

/-- The state of a category before any field is processed. -/
def emptyCatState : CatState := ⟨[], hmEmpty, false⟩

/-- The interning step of `explore_add_unique_string`: hash the trimmed
segment with `ex_hash32_nocase_filtered(str, len, '0', 255)`, reuse the
mapped value on a hit with no string comparison, otherwise copy the
segment as a new value and register it under the hash. -/
def explore_intern_segment (cs : CatState) (seg : List Nat) :
    CatState × Nat :=
  let hash := ex_hash32_nocase_filtered seg 48 255
  match ex_hashmap32_getnum cs.map hash with
  | 0 =>
      let id := cs.values.length
      (⟨cs.values ++ [seg], ex_hashmap32_setnum cs.map hash (id + 1),
        cs.hasUnknown⟩, id)
  | n + 1 => (cs, n)

/-- The byte range `[a, b)` of the field buffer. -/
def sliceBytes (s : List Nat) (a b : Int) : List Nat :=
  (s.drop a.toNat).take (b - a).toNat

/-- The segment-scanning loop of `explore_add_unique_string`, with `str`
and `p` as offsets into the field buffer; `none` models an execution
that reads out of bounds or underflows the segment length. -/
def explore_add_unique_string_go (splitOk is_company : Bool)
    (s : List Nat) :
    Nat → Int → Int → CatState → Option Nat → List Nat →
      Option (CatState × Option Nat × List Nat)
  | 0, _, _, _, _, _ => none
  | fuel + 1, str, p, cs, eBy, split => do
      let c ← atC s p
      if c ≠ 47 ∧ c ≠ 44 ∧ c ≠ 124 ∧ c ≠ 0 then
        explore_add_unique_string_go splitOk is_company s fuel str (p + 1)
          cs eBy split
      else if splitOk = false ∧ c ≠ 0 then
        explore_add_unique_string_go splitOk is_company s fuel str (p + 1)
          cs eBy split
      else do
        let pNext := p
        let str1 ← skipSpaces s (s.length + 2) str
        let p1 ← trimBack s (s.length + 2) p
        if p1 = str1 then do
          let c1 ← atC s p1
          if c1 = 0 then pure (cs, eBy, split)
          else
            explore_add_unique_string_go splitOk is_company s fuel str1
              (p1 + 1) cs eBy split
        else if p1 < str1 then none
        else do
          let p2 ←
            if is_company ∧ p1 - str1 > 5 then do
              let dd ← explore_check_company_suffix_rev s p1
              trimBack s (s.length + 2) (p1 - (dd : Int))
            else pure p1
          let seg := sliceBytes s str1 p2
          let r := explore_intern_segment cs seg
          let ebs ←
            match eBy with
            | none => pure (some r.2, split)
            | some e0 =>
                if splitOk then pure (some e0, split ++ [r.2]) else none
          let cn ← atC s pNext
          if cn = 0 then pure (r.1, ebs.1, ebs.2)
          else if is_company ∧ cn = 44 then do
            let q1 ← skipSpaces s (s.length + 2) (pNext + 1)
            let dd ← explore_check_company_suffix_fwd s q1
            let q2 ← skipSpaces s (s.length + 2) (q1 + (dd : Int))
            let c2 ← atC s q2
            if c2 = 0 then pure (r.1, ebs.1, ebs.2)
            else
              let pn2 := if c2 = 47 ∨ c2 = 44 ∨ c2 = 124 then q2 else pNext
              explore_add_unique_string_go splitOk is_company s fuel
                (pn2 + 1) (pn2 + 1) r.1 ebs.1 ebs.2
          else
            explore_add_unique_string_go splitOk is_company s fuel
              (pNext + 1) (pNext + 1) r.1 ebs.1 ebs.2

/-- `explore_add_unique_string`: normalize one raw field for category
`cat`, interning each accepted segment into the category state and
recording the entry's primary (`e->by[cat]`) and secondary (split)
values; an absent or empty field only sets the has-unknown flag. -/
def explore_add_unique_string (cat : Nat) (cs : CatState)
    (eBy : Option Nat) (split : List Nat) (field : Option (List Nat)) :
    Option (CatState × Option Nat × List Nat) :=
  match field with
  | none => some ({ cs with hasUnknown := true }, eBy, split)
  | some [] => some ({ cs with hasUnknown := true }, eBy, split)
  | some s =>
      let info := explore_by_info.getD cat ⟨false, false, false⟩
      explore_add_unique_string_go info.use_split info.is_company s
        (s.length + 2) 0 1 cs eBy split

/-- Bytes of "Nintendo Co., Ltd.". -/
def nintendoCoLtdBytes : List Nat :=
  [78, 105, 110, 116, 101, 110, 100, 111, 32, 67, 111, 46, 44, 32, 76,
   116, 100, 46]

/-- Bytes of "Nintendo". -/
def nintendoBytes : List Nat := [78, 105, 110, 116, 101, 110, 100, 111]

/-- Bytes of "Nintendo Co.". -/
def nintendoCoBytes : List Nat :=
  [78, 105, 110, 116, 101, 110, 100, 111, 32, 67, 111, 46]

/-- Bytes of "Nintendo, Ltd.". -/
def nintendoLtdBytes : List Nat :=
  [78, 105, 110, 116, 101, 110, 100, 111, 44, 32, 76, 116, 100, 46]

/-- Run two fields of the same category through the normalizer in
sequence with a shared category state (as the build does for two
records), returning the final value array and both primary value ids. -/
def internTwoFields (cat : Nat) (f1 f2 : List Nat) :
    Option (List (List Nat) × Option Nat × Option Nat) := do
  let r1 ← explore_add_unique_string cat emptyCatState none [] (some f1)
  let r2 ← explore_add_unique_string cat r1.1 none [] (some f2)
  pure (r2.1.values, r1.2.1, r2.2.1)

/-- C2 counterexample: in an organization-name category (Developer),
"Nintendo Co., Ltd." is split at the comma, "Co." is not a recognized
legal suffix, so it interns the value "Nintendo Co." (id 0) while
"Nintendo" interns a second, distinct value (id 1): the two inputs do
not canonicalize to one identical FacetValue. -/
theorem C2_counterexample :
    internTwoFields 0 nintendoCoLtdBytes nintendoBytes =
      some ([nintendoCoBytes, nintendoBytes], some 0, some 1) ∧
    (0 : Nat) ≠ 1 := by
  constructor
  · decide
  · decide

/-- C2 (amended): "Nintendo, Ltd." and "Nintendo" canonicalize to the
same FacetValue ("Nintendo"), and "Nintendo Co., Ltd." canonicalizes
identically to "Nintendo Co." — the comma split accepts "Nintendo Co."
as the value and swallows the trailing " Ltd." suffix segment. -/
theorem C2_company_suffix_normalization :
    internTwoFields 0 nintendoLtdBytes nintendoBytes =
      some ([nintendoBytes], some 0, some 0) ∧
    internTwoFields 0 nintendoCoLtdBytes nintendoCoBytes =
      some ([nintendoCoBytes], some 0, some 0) := by
  constructor
  · decide
  · decide

/-- C4: an absent or empty field sets the category's has-unknown flag
and produces no value, but a field consisting only of spaces does not
behave like an absent field: the leading-space trim runs `str` forward
to the terminator while the trailing-space trim runs `p` back past the
start of the buffer, so the code reads out of bounds and computes a
negative segment length (modelled by `none`), never setting has-unknown. -/
theorem C4_blank_field_oob :
    explore_add_unique_string 0 emptyCatState none [] none =
      some (⟨[], hmEmpty, true⟩, none, []) ∧
    explore_add_unique_string 0 emptyCatState none [] (some []) =
      some (⟨[], hmEmpty, true⟩, none, []) ∧
    explore_add_unique_string 0 emptyCatState none [] (some [32]) = none ∧
    explore_add_unique_string 0 emptyCatState none [] (some [32, 32, 32]) =
      none := by
  refine ⟨by decide, by decide, by decide, by decide⟩

/-- A built FacetValue as the query engine sees it: the stable index
assigned after sorting, and the interned string. -/
structure ExValue where
  idx : Nat
  str : List Nat
deriving DecidableEq

/-- A built entry as the query engine sees it: the playlist label, one
optional primary value per category, the NUL-terminated split array
(modelled as a plain list), and the optional alternate title. -/
structure ExEntry where
  label : List Nat
  primary : Nat → Option ExValue
  split : List ExValue
  original_title : Option (List Nat)

/-- One navigation constraint: a category and the selected value, with
`none` standing for the "Unknown" (NULL) filter. -/
structure ExFilter where
  cat : Nat
  sel : Option ExValue

/-- The `use_split` flag of a category. -/
def catUseSplit (cat : Nat) : Bool :=
  (explore_by_info.getD cat ⟨false, false, false⟩).use_split

/-- The do/while walk over the NUL-terminated split array (lines
1080-1087): stop at the first element equal to the filter, or at the
terminator, where `*split` is NULL and the entry is skipped. -/
def splitWalk (sel : Option ExValue) : List ExValue → Bool
  | [] => false
  | v :: rest => if some v = sel then true else splitWalk sel rest

/-- One constraint test from the entry loop of `menu_displaylist_explore`
(lines 1074-1089): pointer-equal primary, or, for a split category with
a non-NULL split array, membership via the split walk. -/
def entryMatchesFilter (e : ExEntry) (f : ExFilter) : Bool :=
  if f.sel = e.primary f.cat then true
  else if catUseSplit f.cat = true ∧ e.split ≠ [] then splitWalk f.sel e.split
  else false

/-- An entry satisfies the navigation path iff it passes every level. -/
def entryMatchesAll (e : ExEntry) (fs : List ExFilter) : Bool :=
  fs.all (entryMatchesFilter e)

/-- The claim's wording of one constraint: primary equals the selected
value, or the category allows multiple values and the selection occurs
among the secondary split values; "unknown" is satisfied exactly by a
null primary. -/
def entrySatisfiesFilterSpec (e : ExEntry) (f : ExFilter) : Prop :=
  match f.sel with
  | some v => e.primary f.cat = some v ∨
      (catUseSplit f.cat = true ∧ v ∈ e.split)
  | none => e.primary f.cat = none

theorem splitWalk_none (split : List ExValue) : splitWalk none split = false := by
  induction split with
  | nil => rfl
  | cons v rest ih => simp [splitWalk, ih]

theorem splitWalk_some (v : ExValue) (split : List ExValue) :
    splitWalk (some v) split = true ↔ v ∈ split := by
  induction split with
  | nil => simp [splitWalk]
  | cons w rest ih =>
    by_cases h : w = v
    · subst h
      simp [splitWalk]
    · rw [splitWalk, if_neg (by simpa using h)]
      rw [ih, List.mem_cons]
      constructor
      · exact Or.inr
      · rintro (hh | hh)
        · exact absurd hh.symm h
        · exact hh

theorem entryMatchesFilter_iff (e : ExEntry) (f : ExFilter) :
    entryMatchesFilter e f = true ↔ entrySatisfiesFilterSpec e f := by
  unfold entryMatchesFilter entrySatisfiesFilterSpec
  cases hsel : f.sel with
  | none =>
    by_cases hp : e.primary f.cat = none
    · rw [if_pos (by rw [hp]), ]
      simp [hp]
    · rw [if_neg (by intro hh; exact hp hh.symm)]
      by_cases hc : catUseSplit f.cat = true ∧ e.split ≠ []
      · rw [if_pos hc, splitWalk_none]
        simp [hp]
      · rw [if_neg hc]
        simp [hp]
  | some v =>
    by_cases hp : e.primary f.cat = some v
    · rw [if_pos (by rw [hp])]
      simp [hp]
    · rw [if_neg (by intro hh; exact hp hh.symm)]
      by_cases hc : catUseSplit f.cat = true ∧ e.split ≠ []
      · rw [if_pos hc]
        rw [splitWalk_some]
        constructor
        · intro hm
          exact Or.inr ⟨hc.1, hm⟩
        · rintro (hh | ⟨_, hm⟩)
          · exact absurd hh hp
          · exact hm
      · rw [if_neg hc]
        constructor
        · intro hh
          exact absurd hh (by simp)
        · rintro (hh | ⟨hc1, hm⟩)
          · exact absurd hh hp
          · exfalso
            apply hc
            refine ⟨hc1, ?_⟩
            intro hnil
            rw [hnil] at hm
            exact absurd hm (List.not_mem_nil v)

/-- C3: an entry satisfies the constraint list iff, for every
constraint, the primary facet pointer equals the selected value, or the
category allows multiple values and the selection occurs among the
secondary split values; an "unknown" constraint is satisfied exactly
when the primary facet is null. -/
theorem C3_filter_satisfaction (e : ExEntry) (fs : List ExFilter) :
    entryMatchesAll e fs = true ↔ ∀ f ∈ fs, entrySatisfiesFilterSpec e f := by
  unfold entryMatchesAll
  rw [List.all_eq_true]
  constructor
  · intro h f hf
    exact (entryMatchesFilter_iff e f).mp (h f hf)
  · intro h f hf
    exact (entryMatchesFilter_iff e f).mpr (h f hf)

/-- Bytes of "Action". -/
def actionBytes : List Nat := [65, 99, 116, 105, 111, 110]

/-- Bytes of "Adventure". -/
def adventureBytes : List Nat := [65, 100, 118, 101, 110, 116, 117, 114, 101]

/-- Bytes of "Action/Adventure". -/
def actionAdventureBytes : List Nat :=
  [65, 99, 116, 105, 111, 110, 47, 65, 100, 118, 101, 110, 116, 117, 114,
   101]

/-- "Action" as a built FacetValue (sorted position 0 of the Genre
array). -/
def vAction : ExValue := ⟨0, actionBytes⟩

/-- "Adventure" as a built FacetValue (sorted position 1). -/
def vAdventure : ExValue := ⟨1, adventureBytes⟩

/-- The entry built from the Genre field "Action/Adventure": primary
"Action", split array ["Adventure"]. -/
def actionAdventureEntry : ExEntry :=
  ⟨[], fun c => if c = 4 then some vAction else none, [vAdventure], none⟩

/-- C5: normalizing "Action/Adventure" for the multi-value Genre
category (index 4) interns "Action" and "Adventure", makes "Action" the
entry's primary facet (value id 0) and "Adventure" a secondary split
value (value id 1); the facet sort keeps "Action" at index 0 and
"Adventure" at index 1, and the resulting entry satisfies a
single-constraint Genre filter selecting either value. -/
theorem C5_split_integrity :
    (explore_add_unique_string 4 emptyCatState none []
        (some actionAdventureBytes)).map (fun r => (r.1.values, r.2.1, r.2.2)) =
      some ([actionBytes, adventureBytes], some 0, [1]) ∧
    explore_sort_strings [actionBytes, adventureBytes] =
      [actionBytes, adventureBytes] ∧
    entryMatchesAll actionAdventureEntry [⟨4, some vAction⟩] = true ∧
    entryMatchesAll actionAdventureEntry [⟨4, some vAdventure⟩] = true := by
  refine ⟨by decide, by decide, by decide, by decide⟩

/-- Case-insensitive prefix test on byte lists. -/
def isCasePrefix : List Nat → List Nat → Bool
  | [], _ => true
  | _ :: _, [] => false
  | c :: nt, h :: ht =>
      if toLowerByte c = toLowerByte h then isCasePrefix nt ht else false

/-- Model of C `strcasestr`: a case-insensitive substring test (an empty
needle always matches). -/
def strcasestrB (hay needle : List Nat) : Bool :=
  (List.range (hay.length + 1)).any (fun i => isCasePrefix needle (hay.drop i))

/-- The free-text test of the entry loop (lines 1092-1095): with a
non-empty find string, the playlist label must contain it
case-insensitively; the alternate title is never examined. -/
def entryPassesFind (e : ExEntry) (find : List Nat) : Bool :=
  if find = [] then true else strcasestrB e.label find

/-- Whether an entry passes both the constraint filters and the
free-text filter. -/
def entryShown (fs : List ExFilter) (find : List Nat) (e : ExEntry) : Bool :=
  entryMatchesAll e fs && entryPassesFind e find

/-- What the entry-listing view does with one entry (lines 1092-1095 and
1113-1119): list it iff it passes the filters and the search, and
present the alternate title when captured, else the collection label. -/
def entryListItem (e : ExEntry) (fs : List ExFilter) (find : List Nat) :
    Option (List Nat) :=
  if entryShown fs find e = true then
    some (e.original_title.getD e.label)
  else none

/-- The entry with label "1942" and alternate title "Mario Bros". -/
def marioEntry : ExEntry :=
  ⟨[49, 57, 52, 50], fun _ => none, [],
    some [77, 97, 114, 105, 111, 32, 66, 114, 111, 115]⟩

/-- C10: the free-text filter always tests the collection label and
never the alternate title: whether an entry is listed is unchanged by
its alternate title, while the presented title is the alternate one
when present.  Concretely, the entry labelled "1942" with alternate
title "Mario Bros" does not match the search "mario", although a label
search for "194" lists it under the title "Mario Bros". -/
theorem C10_find_ignores_alternate_title :
    (∀ (label : List Nat) (pr : Nat → Option ExValue) (sp : List ExValue)
        (ot : List Nat) (fs : List ExFilter) (find : List Nat),
      (entryListItem ⟨label, pr, sp, some ot⟩ fs find).isSome =
        (entryListItem ⟨label, pr, sp, none⟩ fs find).isSome ∧
      ∀ r, entryListItem ⟨label, pr, sp, some ot⟩ fs find = some r → r = ot) ∧
    entryListItem marioEntry [] [109, 97, 114, 105, 111] = none ∧
    entryListItem marioEntry [] [49, 57, 52] =
      some [77, 97, 114, 105, 111, 32, 66, 114, 111, 115] := by
  refine ⟨?_, by decide, by decide⟩
  intro label pr sp ot fs find
  have hsame : entryShown fs find ⟨label, pr, sp, some ot⟩ =
      entryShown fs find ⟨label, pr, sp, none⟩ := rfl
  constructor
  · unfold entryListItem
    rw [← hsame]
    by_cases h : entryShown fs find ⟨label, pr, sp, some ot⟩ = true
    · rw [if_pos h, if_pos h]
      rfl
    · rw [if_neg h, if_neg h]
  · intro r hr
    unfold entryListItem at hr
    by_cases h : entryShown fs find ⟨label, pr, sp, some ot⟩ = true
    · rw [if_pos h] at hr
      simpa using hr.symm
    · rw [if_neg h] at hr
      exact absurd hr (by simp)

theorem ex_hash32_nocase_filtered_ne_zero (s : List Nat) (a b : Nat) :
    ex_hash32_nocase_filtered s a b ≠ 0 := by
  have hgen : ∀ n : Nat, (if n = 0 then 1 else n) ≠ 0 := by
    intro n
    by_cases h : n = 0
    · rw [if_pos h]
      exact Nat.one_ne_zero
    · rw [if_neg h]
      exact h
  exact hgen _

theorem explore_intern_segment_eq (cs : CatState) (seg : List Nat) (g : Nat)
    (hg : ex_hashmap32_getnum cs.map (ex_hash32_nocase_filtered seg 48 255) = g) :
    explore_intern_segment cs seg =
      if g = 0 then
        (⟨cs.values ++ [seg],
          ex_hashmap32_setnum cs.map (ex_hash32_nocase_filtered seg 48 255)
            (cs.values.length + 1), cs.hasUnknown⟩, cs.values.length)
      else (cs, g - 1) := by
  unfold explore_intern_segment
  dsimp only
  rw [hg]
  cases g with
  | zero => rw [if_pos rfl]
  | succ n =>
    rw [if_neg (by omega)]
    simp

/-- C8: within one category, whether a new segment interns to an
existing FacetValue is decided solely by equality of the case-folded,
range-filtered 32-bit hashes: after interning one segment into a fresh
category state, a second segment reuses that very value (and leaves the
state unchanged) exactly when its hash equals the first segment's hash,
regardless of the strings' contents.  Concretely, "X!" and "X" — whose
bytes differ but whose hashes agree because '!' lies below the filter
range — intern to the single FacetValue "X!". -/
theorem C8_interning_by_hash_only (seg1 seg2 : List Nat) :
    (((explore_intern_segment
          (explore_intern_segment emptyCatState seg1).1 seg2).2 =
        (explore_intern_segment emptyCatState seg1).2 ∧
      (explore_intern_segment
          (explore_intern_segment emptyCatState seg1).1 seg2).1 =
        (explore_intern_segment emptyCatState seg1).1) ↔
      ex_hash32_nocase_filtered seg2 48 255 =
        ex_hash32_nocase_filtered seg1 48 255) ∧
    internTwoFields 4 [88, 33] [88] = some ([[88, 33]], some 0, some 0) := by
  constructor
  · have h1 : ex_hash32_nocase_filtered seg1 48 255 ≠ 0 :=
      ex_hash32_nocase_filtered_ne_zero seg1 48 255
    have h2 : ex_hash32_nocase_filtered seg2 48 255 ≠ 0 :=
      ex_hash32_nocase_filtered_ne_zero seg2 48 255
    have hget1 : ex_hashmap32_getnum emptyCatState.map
        (ex_hash32_nocase_filtered seg1 48 255) = 0 := by
      unfold ex_hashmap32_getnum
      rw [if_pos (Or.inl (show emptyCatState.map.len = 0 from rfl))]
    have hfirst := explore_intern_segment_eq emptyCatState seg1 0 hget1
    rw [if_pos rfl] at hfirst
    obtain ⟨hinv1, hrep1⟩ := hm_set_rep (f := fun _ => none) (Or.inl rfl)
      tableRep_empty h1 1
    have hcs1 : (explore_intern_segment emptyCatState seg1).1 =
        ⟨[seg1], ex_hashmap32_setnum hmEmpty
          (ex_hash32_nocase_filtered seg1 48 255) 1, false⟩ := by
      rw [hfirst]
      rfl
    have hid1 : (explore_intern_segment emptyCatState seg1).2 = 0 := by
      rw [hfirst]
      rfl
    have hget2 : ex_hashmap32_getnum
        ((explore_intern_segment emptyCatState seg1).1).map
        (ex_hash32_nocase_filtered seg2 48 255) =
        (if ex_hash32_nocase_filtered seg2 48 255 =
            ex_hash32_nocase_filtered seg1 48 255 then 1 else 0) := by
      rw [hcs1]
      rw [show (⟨[seg1], ex_hashmap32_setnum hmEmpty
          (ex_hash32_nocase_filtered seg1 48 255) 1, false⟩ : CatState).map =
        ex_hashmap32_setnum hmEmpty
          (ex_hash32_nocase_filtered seg1 48 255) 1 from rfl]
      rw [hm_get_rep (Or.inr hinv1) hrep1]
      rw [if_neg h2]
      by_cases heq : ex_hash32_nocase_filtered seg2 48 255 =
          ex_hash32_nocase_filtered seg1 48 255
      · rw [if_pos heq, if_pos heq]
        rfl
      · rw [if_neg heq, if_neg heq]
        rfl
    by_cases heq : ex_hash32_nocase_filtered seg2 48 255 =
        ex_hash32_nocase_filtered seg1 48 255
    · rw [if_pos heq] at hget2
      have hsecond := explore_intern_segment_eq
        ((explore_intern_segment emptyCatState seg1).1) seg2 1 hget2
      rw [if_neg (by omega)] at hsecond
      rw [hsecond, hid1]
      simp [heq]
    · rw [if_neg heq] at hget2
      have hsecond := explore_intern_segment_eq
        ((explore_intern_segment emptyCatState seg1).1) seg2 0 hget2
      rw [if_pos rfl] at hsecond
      rw [hsecond, hid1, hcs1]
      constructor
      · rintro ⟨hid, _⟩
        simp at hid
      · intro hh
        exact absurd hh heq
  · decide


/-! ### C6: the distinct-value view (lines 1097-1111, 1125-1133) -/

/-- `explore_qsort_func_menulist` (lines 353-360): menu items are
compared by their path string, raw first byte first, `strcasecmp` as the
tie break.  In the distinct-value view an item's path is the facet
value's string, so the comparator acts on the emitted `ExValue`s. -/
def explore_qsort_func_menulist (a b : ExValue) : Int :=
  if a.str.headD 0 ≠ b.str.headD 0 then
    (a.str.headD 0 : Int) - (b.str.headD 0 : Int)
  else strcasecmp a.str b.str

/-- The order realized by `qsort` with `explore_qsort_func_menulist`. -/
abbrev menulistRel (a b : ExValue) : Prop :=
  explore_qsort_func_menulist a b ≤ 0

/-- Strict version of the menulist comparator order. -/
abbrev menulistLt (a b : ExValue) : Prop :=
  explore_qsort_func_menulist a b < 0

instance : DecidableRel menulistRel := fun _ _ =>
  inferInstanceAs (Decidable (_ ≤ _))

instance : DecidableRel menulistLt := fun _ _ =>
  inferInstanceAs (Decidable (_ < _))

theorem menulist_eq_strings (a b : ExValue) :
    explore_qsort_func_menulist a b = explore_qsort_func_strings a.str b.str :=
  rfl

instance : IsTotal ExValue menulistRel :=
  ⟨fun a b => qsortRel_total a.str b.str⟩

instance : IsTrans ExValue menulistRel :=
  ⟨fun _ _ _ hab hbc => qsortRel_trans hab hbc⟩

theorem menulistFunc_flip (a b : ExValue) :
    explore_qsort_func_menulist a b = -explore_qsort_func_menulist b a := by
  unfold explore_qsort_func_menulist
  by_cases h : a.str.headD 0 = b.str.headD 0
  · rw [if_neg (by omega), if_neg (by omega)]
    exact strcasecmp_flip _ _
  · rw [if_pos (by omega), if_pos (by omega)]
    omega

theorem menulistLt_asymm {a b : ExValue} (h : menulistLt a b) :
    ¬ menulistLt b a := by
  unfold menulistLt at h ⊢
  rw [menulistFunc_flip b a]
  omega

theorem menulistLt_of_rel_of_comparable {a b : ExValue}
    (hr : menulistRel a b) (hc : menulistLt a b ∨ menulistLt b a) :
    menulistLt a b := by
  rcases hc with h | h
  · exact h
  · unfold menulistRel at hr
    unfold menulistLt at h ⊢
    rw [menulistFunc_flip b a] at h
    omega

/-- Two lists sorted strictly by an asymmetric relation and having the
same elements are equal. -/
theorem sorted_mem_eq {α : Type} {r : α → α → Prop}
    (hasymm : ∀ a b, r a b → ¬ r b a) :
    ∀ (l1 l2 : List α), l1.Pairwise r → l2.Pairwise r →
      (∀ x, x ∈ l1 ↔ x ∈ l2) → l1 = l2 := by
  intro l1
  induction l1 with
  | nil =>
    intro l2 _ _ hm
    cases l2 with
    | nil => rfl
    | cons b t2 => exact absurd ((hm b).mpr (List.mem_cons_self b t2)) (by simp)
  | cons a t1 ih =>
    intro l2 h1 h2 hm
    cases l2 with
    | nil => exact absurd ((hm a).mp (List.mem_cons_self a t1)) (by simp)
    | cons b t2 =>
      obtain ⟨h1a, h1t⟩ := List.pairwise_cons.mp h1
      obtain ⟨h2b, h2t⟩ := List.pairwise_cons.mp h2
      have hab : a = b := by
        by_contra hne
        have ha2 : a ∈ b :: t2 := (hm a).mp (List.mem_cons_self a t1)
        have hb1 : b ∈ a :: t1 := (hm b).mpr (List.mem_cons_self b t2)
        have hat2 : a ∈ t2 := by
          rcases List.mem_cons.mp ha2 with h | h
          · exact absurd h hne
          · exact h
        have hbt1 : b ∈ t1 := by
          rcases List.mem_cons.mp hb1 with h | h
          · exact absurd h.symm hne
          · exact h
        exact hasymm a b (h1a b hbt1) (h2b a hat2)
      subst hab
      have hmt : ∀ x, x ∈ t1 ↔ x ∈ t2 := by
        intro x
        constructor
        · intro hx
          rcases List.mem_cons.mp ((hm x).mp (List.mem_cons_of_mem a hx)) with h | h
          · exact absurd (h ▸ h1a x hx) (fun hr => hasymm _ _ hr hr)
          · exact h
        · intro hx
          rcases List.mem_cons.mp ((hm x).mpr (List.mem_cons_of_mem a hx)) with h | h
          · exact absurd (h ▸ h2b x hx) (fun hr => hasymm _ _ hr hr)
          · exact h
      rw [ih t2 h1t h2t hmt]

theorem tableRep_congr {m : Hashmap32} {f g : Nat → Option Nat}
    (h : TableRep m f) (hfg : ∀ k, f k = g k) : TableRep m g := by
  intro k hk
  rw [← hfg k]
  exact h k hk

/-- One step of the distinct-value loop (lines 1097-1111): for a
satisfying entry, a null primary only raises the unknown flag; a present
primary already recorded in the membership hashmap (keyed by stable
index + 1) is skipped, otherwise it is recorded and emitted. -/
def distinctStep (fs : List ExFilter) (find : List Nat) (cat : Nat)
    (st : List ExValue × Hashmap32 × Bool) (e : ExEntry) :
    List ExValue × Hashmap32 × Bool :=
  if entryShown fs find e then
    match e.primary cat with
    | none => (st.1, st.2.1, true)
    | some v =>
        if ex_hashmap32_getnum st.2.1 (v.idx + 1) ≠ 0 then st
        else (st.1 ++ [v], ex_hashmap32_setnum st.2.1 (v.idx + 1) 1, st.2.2)
  else st

/-- The whole entry loop of the distinct-value view: fold the step over
the entry array starting from an empty item list, an empty membership
hashmap and a cleared unknown flag. -/
def distinctPass (fs : List ExFilter) (find : List Nat) (cat : Nat)
    (entries : List ExEntry) : List ExValue × Hashmap32 × Bool :=
  entries.foldl (distinctStep fs find cat) ([], hmEmpty, false)

/-- The distinct-value view: the emitted items sorted by
`explore_qsort_func_menulist` (line 1126), paired with the flag that
decides the trailing "Unknown" item (lines 1128-1133). -/
def distinctView (fs : List ExFilter) (find : List Nat) (cat : Nat)
    (entries : List ExEntry) : List ExValue × Bool :=
  ((distinctPass fs find cat entries).1.insertionSort menulistRel,
    (distinctPass fs find cat entries).2.2)

/-- Whether some satisfying entry has `v` as its primary value for the
target category. -/
def hasPrimary (fs : List ExFilter) (find : List Nat) (cat : Nat)
    (p : List ExEntry) (v : ExValue) : Bool :=
  p.any (fun e => entryShown fs find e && decide (e.primary cat = some v))

/-- Whether some satisfying entry has a null primary for the target
category. -/
def hasNullPrimary (fs : List ExFilter) (find : List Nat) (cat : Nat)
    (p : List ExEntry) : Bool :=
  p.any (fun e => entryShown fs find e && (e.primary cat).isNone)

/-- The abstract contents of the membership hashmap: key idx+1 maps to 1
for each emitted item. -/
def seenFun (items : List ExValue) : Nat → Option Nat :=
  fun k => if items.any (fun v => v.idx + 1 == k) then some 1 else none

/-- Loop invariant of the distinct-value pass after processing the
entries `p`: the emitted items are exactly the primaries of satisfying
processed entries, without duplicate stable indices and drawn from the
category's value list; the hashmap represents their index set; the flag
records whether a satisfying processed entry lacked a primary. -/
structure DistinctInv (fs : List ExFilter) (find : List Nat) (cat : Nat)
    (vals : List ExValue) (p : List ExEntry)
    (st : List ExValue × Hashmap32 × Bool) : Prop where
  mem : ∀ v, v ∈ st.1 ↔ hasPrimary fs find cat p v = true
  sub : ∀ v ∈ st.1, v ∈ vals
  nodupIdx : List.Pairwise (fun a b => a.idx ≠ b.idx) st.1
  ok : HmOk st.2.1
  rep : TableRep st.2.1 (seenFun st.1)
  unk : st.2.2 = hasNullPrimary fs find cat p

theorem hasPrimary_append_one (fs : List ExFilter) (find : List Nat)
    (cat : Nat) (p : List ExEntry) (e : ExEntry) (v : ExValue) :
    hasPrimary fs find cat (p ++ [e]) v =
      (hasPrimary fs find cat p v ||
        (entryShown fs find e && decide (e.primary cat = some v))) := by
  unfold hasPrimary
  rw [List.any_append]
  simp only [List.any_cons, List.any_nil, Bool.or_false]

theorem hasNullPrimary_append_one (fs : List ExFilter) (find : List Nat)
    (cat : Nat) (p : List ExEntry) (e : ExEntry) :
    hasNullPrimary fs find cat (p ++ [e]) =
      (hasNullPrimary fs find cat p ||
        (entryShown fs find e && (e.primary cat).isNone)) := by
  unfold hasNullPrimary
  rw [List.any_append]
  simp only [List.any_cons, List.any_nil, Bool.or_false]

theorem distinctStep_inv {fs : List ExFilter} {find : List Nat} {cat : Nat}
    {vals : List ExValue}
    (hdet : ∀ u ∈ vals, ∀ v ∈ vals, u.idx = v.idx → u = v)
    {p : List ExEntry} {st : List ExValue × Hashmap32 × Bool} {e : ExEntry}
    (he : ∀ v, e.primary cat = some v → v ∈ vals)
    (hinv : DistinctInv fs find cat vals p st) :
    DistinctInv fs find cat vals (p ++ [e]) (distinctStep fs find cat st e) := by
  unfold distinctStep
  by_cases hs : entryShown fs find e = true
  case neg =>
    have hs' : entryShown fs find e = false := by
      revert hs
      cases entryShown fs find e <;> simp
    rw [if_neg hs]
    refine ⟨?_, hinv.sub, hinv.nodupIdx, hinv.ok, hinv.rep, ?_⟩
    · intro v
      rw [hasPrimary_append_one, hs', Bool.false_and, Bool.or_false]
      exact hinv.mem v
    · rw [hasNullPrimary_append_one, hs', Bool.false_and, Bool.or_false]
      exact hinv.unk
  case pos =>
    rw [if_pos hs]
    cases hp : e.primary cat with
    | none =>
      refine ⟨?_, hinv.sub, hinv.nodupIdx, hinv.ok, hinv.rep, ?_⟩
      · intro v
        rw [hasPrimary_append_one, hs, hp, Bool.true_and]
        rw [decide_eq_false (fun hc => Option.noConfusion hc), Bool.or_false]
        exact hinv.mem v
      · show true = _
        rw [hasNullPrimary_append_one, hs, hp]
        simp
    | some v =>
      have hvv : v ∈ vals := he v hp
      have hget := hm_get_rep hinv.ok hinv.rep (v.idx + 1)
      rw [if_neg (by omega : ¬(v.idx + 1 = 0))] at hget
      show DistinctInv fs find cat vals (p ++ [e])
        (if ex_hashmap32_getnum st.2.1 (v.idx + 1) ≠ 0 then st
         else (st.1 ++ [v], ex_hashmap32_setnum st.2.1 (v.idx + 1) 1, st.2.2))
      by_cases hseen : st.1.any (fun w => w.idx + 1 == v.idx + 1) = true
      case pos =>
        have hget1 : ex_hashmap32_getnum st.2.1 (v.idx + 1) = 1 := by
          rw [hget]
          unfold seenFun
          rw [if_pos hseen]
          rfl
        rw [if_pos (by rw [hget1]; omega : ex_hashmap32_getnum st.2.1 (v.idx + 1) ≠ 0)]
        have hvin : v ∈ st.1 := by
          obtain ⟨w, hw, hwb⟩ := List.any_eq_true.mp hseen
          have hwidx : w.idx + 1 = v.idx + 1 := by simpa using hwb
          have hweq : w = v := hdet w (hinv.sub w hw) v hvv (by omega)
          exact hweq ▸ hw
        refine ⟨?_, hinv.sub, hinv.nodupIdx, hinv.ok, hinv.rep, ?_⟩
        · intro u
          rw [hasPrimary_append_one, hs, hp, Bool.true_and]
          by_cases huv : u = v
          · subst huv
            constructor
            · intro _
              rw [decide_eq_true rfl, Bool.or_true]
            · intro _
              exact hvin
          · rw [decide_eq_false (fun hc => huv (Option.some.inj hc).symm),
              Bool.or_false]
            exact hinv.mem u
        · rw [hasNullPrimary_append_one, hs, hp]
          simp only [Option.isNone_some, Bool.and_false, Bool.or_false]
          exact hinv.unk
      case neg =>
        have hget0 : ex_hashmap32_getnum st.2.1 (v.idx + 1) = 0 := by
          rw [hget]
          unfold seenFun
          rw [if_neg hseen]
          rfl
        rw [if_neg (by rw [hget0]; omega : ¬(ex_hashmap32_getnum st.2.1 (v.idx + 1) ≠ 0))]
        have hnotin : ∀ w ∈ st.1, w.idx ≠ v.idx := by
          intro w hw hc
          exact hseen (List.any_eq_true.mpr ⟨w, hw, by simp [hc]⟩)
        obtain ⟨hinv2, hrep2⟩ :=
          hm_set_rep hinv.ok hinv.rep (by omega : v.idx + 1 ≠ 0) 1
        refine ⟨?_, ?_, ?_, Or.inr hinv2, ?_, ?_⟩
        · intro u
          rw [hasPrimary_append_one, hs, hp, Bool.true_and]
          constructor
          · intro hu
            rcases List.mem_append.mp hu with h | h
            · rw [(hinv.mem u).mp h, Bool.true_or]
            · rw [List.mem_singleton.mp h, decide_eq_true rfl, Bool.or_true]
          · intro hu
            have hu' : hasPrimary fs find cat p u = true ∨ v = u := by
              simpa using hu
            rcases hu' with h | h
            · exact List.mem_append_left _ ((hinv.mem u).mpr h)
            · exact List.mem_append_right _ (by simp [h])
        · intro u hu
          rcases List.mem_append.mp hu with h | h
          · exact hinv.sub u h
          · rw [List.mem_singleton.mp h]
            exact hvv
        · rw [List.pairwise_append]
          refine ⟨hinv.nodupIdx, by simp, ?_⟩
          intro a ha b hb
          rw [List.mem_singleton.mp hb]
          exact hnotin a ha
        · refine tableRep_congr hrep2 (fun k => ?_)
          by_cases hk : k = v.idx + 1
          · rw [if_pos hk]
            unfold seenFun
            rw [if_pos (List.any_eq_true.mpr ⟨v, by simp, by simp [hk]⟩)]
          · rw [if_neg hk]
            unfold seenFun
            rw [List.any_append]
            rw [show ([v].any (fun w => w.idx + 1 == k)) = false from by
              simp only [List.any_cons, List.any_nil, Bool.or_false]
              exact beq_eq_false_iff_ne.mpr (fun hc => hk hc.symm)]
            rw [Bool.or_false]
        · show st.2.2 = _
          rw [hasNullPrimary_append_one, hs, hp]
          simp only [Option.isNone_some, Bool.and_false, Bool.or_false]
          exact hinv.unk

theorem distinctFold_inv {fs : List ExFilter} {find : List Nat} {cat : Nat}
    {vals : List ExValue}
    (hdet : ∀ u ∈ vals, ∀ v ∈ vals, u.idx = v.idx → u = v) :
    ∀ (es p : List ExEntry) (st : List ExValue × Hashmap32 × Bool),
      (∀ e ∈ es, ∀ v, e.primary cat = some v → v ∈ vals) →
      DistinctInv fs find cat vals p st →
      DistinctInv fs find cat vals (p ++ es)
        (es.foldl (distinctStep fs find cat) st) := by
  intro es
  induction es with
  | nil =>
    intro p st _ hinv
    rw [List.append_nil]
    exact hinv
  | cons e es ih =>
    intro p st hes hinv
    rw [List.foldl_cons]
    have h1 := distinctStep_inv hdet (hes e (List.mem_cons_self e es)) hinv
    have h2 := ih (p ++ [e]) _
      (fun e' he' v hv => hes e' (List.mem_cons_of_mem e he') v hv) h1
    rw [List.append_assoc] at h2
    exact h2

theorem distinctInv_init (fs : List ExFilter) (find : List Nat) (cat : Nat)
    (vals : List ExValue) :
    DistinctInv fs find cat vals [] ([], hmEmpty, false) := by
  refine ⟨?_, ?_, List.Pairwise.nil, Or.inl rfl, ?_, rfl⟩
  · intro v
    simp [hasPrimary]
  · intro v hv
    exact absurd hv (by simp)
  · exact tableRep_congr tableRep_empty (fun k => rfl)

theorem menulist_comparable {vals : List ExValue}
    (hsorted : List.Pairwise menulistLt vals) {a b : ExValue}
    (ha : a ∈ vals) (hb : b ∈ vals) (hne : a ≠ b) :
    menulistLt a b ∨ menulistLt b a := by
  rw [List.pairwise_iff_getElem] at hsorted
  obtain ⟨i, hi, hia⟩ := List.mem_iff_getElem.mp ha
  obtain ⟨j, hj, hjb⟩ := List.mem_iff_getElem.mp hb
  rcases Nat.lt_trichotomy i j with h | h | h
  · exact Or.inl (hia ▸ hjb ▸ hsorted i j hi hj h)
  · exact absurd (by subst h; rw [← hia, ← hjb]) hne
  · exact Or.inr (hjb ▸ hia ▸ hsorted j i hj hi h)

/-- C6: the distinct-value view for a target category.  If the
category's value list is strictly ordered by the menulist comparator,
each value's stable index is its position, and every satisfying entry's
primary value (when present) comes from that list, then the view emits
exactly the values held as primary by at least one satisfying entry —
each exactly once, in the pre-sorted order of the value list — and
reports the trailing "Unknown" item exactly when some satisfying entry
has a null primary for the category. -/
theorem C6_distinct_value_view (fs : List ExFilter) (find : List Nat)
    (cat : Nat) (entries : List ExEntry) (vals : List ExValue)
    (hsorted : List.Pairwise menulistLt vals)
    (hidx : ∀ i (h : i < vals.length), vals[i].idx = i)
    (hprim : ∀ e ∈ entries, ∀ v, e.primary cat = some v → v ∈ vals) :
    (distinctView fs find cat entries).1 =
      vals.filter (fun v => hasPrimary fs find cat entries v) ∧
    (distinctView fs find cat entries).2 =
      hasNullPrimary fs find cat entries := by
  have hdet : ∀ u ∈ vals, ∀ v ∈ vals, u.idx = v.idx → u = v := by
    intro u hu v hv huv
    obtain ⟨i, hi, hiu⟩ := List.mem_iff_getElem.mp hu
    obtain ⟨j, hj, hjv⟩ := List.mem_iff_getElem.mp hv
    have h1 : u.idx = i := by
      rw [← hiu]
      exact hidx i hi
    have h2 : v.idx = j := by
      rw [← hjv]
      exact hidx j hj
    have hij : i = j := by omega
    subst hij
    rw [← hiu, ← hjv]
  have hfin : DistinctInv fs find cat vals entries
      (distinctPass fs find cat entries) := by
    have h := distinctFold_inv hdet entries [] ([], hmEmpty, false) hprim
      (distinctInv_init fs find cat vals)
    rw [List.nil_append] at h
    exact h
  refine ⟨?_, hfin.unk⟩
  show (distinctPass fs find cat entries).1.insertionSort menulistRel = _
  have hmemS : ∀ x, x ∈ (distinctPass fs find cat entries).1.insertionSort
      menulistRel ↔ x ∈ (distinctPass fs find cat entries).1 :=
    fun x => (List.perm_insertionSort menulistRel _).mem_iff
  have hmemF : ∀ x,
      x ∈ vals.filter (fun v => hasPrimary fs find cat entries v) ↔
        x ∈ (distinctPass fs find cat entries).1 := by
    intro x
    rw [List.mem_filter]
    constructor
    · rintro ⟨hxv, hxp⟩
      exact (hfin.mem x).mpr hxp
    · intro hx
      exact ⟨hfin.sub x hx, (hfin.mem x).mp hx⟩
  have hnd : (distinctPass fs find cat entries).1.Nodup :=
    hfin.nodupIdx.imp (fun hab he => hab (congrArg ExValue.idx he))
  have hsortS : List.Pairwise menulistRel
      ((distinctPass fs find cat entries).1.insertionSort menulistRel) :=
    List.sorted_insertionSort menulistRel _
  have hndS : ((distinctPass fs find cat entries).1.insertionSort
      menulistRel).Nodup :=
    ((List.perm_insertionSort menulistRel _).nodup_iff).mpr hnd
  have hsubS : ∀ x ∈ (distinctPass fs find cat entries).1.insertionSort
      menulistRel, x ∈ vals :=
    fun x hx => hfin.sub x ((hmemS x).mp hx)
  have hstrict : List.Pairwise menulistLt
      ((distinctPass fs find cat entries).1.insertionSort menulistRel) := by
    rw [List.pairwise_iff_getElem] at hsortS ⊢
    rw [List.Nodup, List.pairwise_iff_getElem] at hndS
    intro i j hi hj hij
    exact menulistLt_of_rel_of_comparable (hsortS i j hi hj hij)
      (menulist_comparable hsorted
        (hsubS _ (List.mem_iff_getElem.mpr ⟨i, hi, rfl⟩))
        (hsubS _ (List.mem_iff_getElem.mpr ⟨j, hj, rfl⟩))
        (hndS i j hi hj hij))
  have hfilter : List.Pairwise menulistLt
      (vals.filter (fun v => hasPrimary fs find cat entries v)) :=
    List.Pairwise.sublist (List.filter_sublist _) hsorted
  exact sorted_mem_eq (fun _ _ h => menulistLt_asymm h) _ _ hstrict hfilter
    (fun x => (hmemS x).trans ((hmemF x).symm))

theorem C6_distinct_value_view_witness :
    (distinctView [] [] 4 [actionAdventureEntry, marioEntry]).1 =
      [vAction, vAdventure].filter
        (fun v => hasPrimary [] [] 4 [actionAdventureEntry, marioEntry] v) ∧
    (distinctView [] [] 4 [actionAdventureEntry, marioEntry]).2 =
      hasNullPrimary [] [] 4 [actionAdventureEntry, marioEntry] := by
  refine C6_distinct_value_view [] [] 4 [actionAdventureEntry, marioEntry]
    [vAction, vAdventure] (by decide) (by decide) ?_
  intro e he v hv
  rcases List.mem_cons.mp he with h | h
  · subst h
    have hv' : some vAction = some v := hv
    rw [← Option.some.inj hv']
    decide
  · rcases List.mem_cons.mp h with h2 | h2
    · subst h2
      exact Option.noConfusion (show (none : Option ExValue) = some v from hv)
    · exact absurd h2 (by simp)

end Explore
